import Mathlib

/-!
# Verification of the envmerge core (parser / merger / serializer)

Shallow embedding of `src/core/parser.ts` and `src/core/merger.ts` of the
`envmerge` repository.  Strings are modelled as `List Char`; the singly
linked block list of the source is modelled as `List Block` (the JS `null`
head is the empty list); in-place mutation of the base document during a
merge becomes functional update.  JavaScript regular-expression whitespace
(`\s`), `String.prototype.trim` whitespace and the line terminators of `.`
are modelled by explicit character-set predicates below.
-/

set_option maxHeartbeats 1000000

namespace EnvMerge

/-- Shorthand: the character list of a string literal. -/
def str (s : String) : List Char := s.data

/-- The single-quote character (written via its code point). -/
def squote : Char := Char.ofNat 39

/-- JavaScript whitespace (`\s` in a regex, and what `String.prototype.trim`
removes): tab, LF, VT, FF, CR, space, NBSP, Ogham space mark, the
`U+2000`–`U+200A` range, LS, PS, NNBSP, MMSP, ideographic space and BOM. -/
def isWsChar (c : Char) : Bool :=
  c.val = 9 || c.val = 10 || c.val = 11 || c.val = 12 || c.val = 13 || c.val = 32 ||
  c.val = 160 || c.val = 5760 || (8192 ≤ c.val && c.val ≤ 8202) ||
  c.val = 8232 || c.val = 8233 || c.val = 8239 || c.val = 8287 ||
  c.val = 12288 || c.val = 65279

/-- JavaScript line terminators, the characters `.` does not match:
LF, CR, LS, PS. -/
def isLineTerm (c : Char) : Bool :=
  c.val = 10 || c.val = 13 || c.val = 8232 || c.val = 8233

/-- `[A-Za-z_]`, the first character of an env key. -/
def isIdentStart (c : Char) : Bool :=
  ('A' ≤ c && c ≤ 'Z') || ('a' ≤ c && c ≤ 'z') || c = '_'

/-- `[A-Za-z0-9_]`, the later characters of an env key. -/
def isIdentChar (c : Char) : Bool :=
  isIdentStart c || ('0' ≤ c && c ≤ '9')

/-- JavaScript `value.trim()`: drop whitespace from both ends. -/
def trimChars (s : List Char) : List Char :=
  ((s.dropWhile isWsChar).reverse.dropWhile isWsChar).reverse

/-- JavaScript `s.replace(/<a>/g, rep)` for a single-character pattern `a`
(used by `quoteValue`'s escaping): replace every occurrence. -/
def replace1 (a : Char) (rep : List Char) : List Char → List Char
  | [] => []
  | c :: rest => (if c = a then rep else [c]) ++ replace1 a rep rest

/-- JavaScript `s.replace(/<a><b>/g, rep)` for a two-character pattern
(used by `unquoteValue`'s unescaping): left-to-right, non-overlapping. -/
def replace2 (a b : Char) (rep : List Char) : List Char → List Char
  | [] => []
  | [c] => [c]
  | c :: d :: rest =>
    if c = a && d = b then rep ++ replace2 a b rep rest
    else c :: replace2 a b rep (d :: rest)

/-- The unescape chain of `unquoteValue`'s double-quote branch, in source
order: `\n`, `\r`, `\t`, `\\`, `\"`. -/
def unescapeDouble (s : List Char) : List Char :=
  replace2 '\\' '"' ['"']
    (replace2 '\\' '\\' ['\\']
      (replace2 '\\' 't' ['\t']
        (replace2 '\\' 'r' ['\r']
          (replace2 '\\' 'n' ['\n'] s))))

/-- `unquoteValue` of the source: trim, then strip a fully wrapping pair of
single quotes literally, or strip double quotes and unescape, else return
the trimmed text. -/
def unquoteValue (value : List Char) : List Char :=
  let trimmed := trimChars value
  if trimmed.head? = some squote && trimmed.getLast? = some squote then
    (trimmed.drop 1).dropLast
  else if trimmed.head? = some '"' && trimmed.getLast? = some '"' then
    unescapeDouble ((trimmed.drop 1).dropLast)
  else trimmed

/-- The special-character test of `quoteValue`. -/
def needsQuote (value : List Char) : Bool :=
  value.contains ' ' || value.contains '\n' || value.contains '\r' ||
  value.contains '\t' || value.contains '#' || value.contains '"' ||
  value.contains squote || value.contains '\\'

/-- The escape chain of `quoteValue`, in source order: `\\`, `"`, `\n`,
`\r`, `\t`. -/
def escapeDouble (s : List Char) : List Char :=
  replace1 '\t' ['\\', 't']
    (replace1 '\r' ['\\', 'r']
      (replace1 '\n' ['\\', 'n']
        (replace1 '"' ['\\', '"']
          (replace1 '\\' ['\\', '\\'] s))))

/-- `quoteValue` of the source: wrap in double quotes with escaping when the
value holds a special character, else emit it unchanged. -/
def quoteValue (value : List Char) : List Char :=
  if needsQuote value then '"' :: escapeDouble value ++ ['"'] else value

/-- A parsed physical line (the parser's internal `Line` type). -/
inductive Line where
  | comment (content : List Char)
  | empty
  | var (key value raw : List Char)
deriving DecidableEq

/-- The match of `^([A-Za-z_][A-Za-z0-9_]*)\s*=\s*(.*)$` against a line,
returning the key and the raw captured value.  The key is the maximal
identifier run; `\s*` runs are maximal since whitespace, identifier
characters and `=` are pairwise disjoint; `.` refuses line terminators, so
the match fails when a terminator survives after the `=` and the greedy
whitespace run. -/
def matchVarLine (line : List Char) : Option (List Char × List Char) :=
  match line with
  | [] => none
  | c :: rest =>
    if isIdentStart c then
      match (rest.dropWhile isIdentChar).dropWhile isWsChar with
      | '=' :: tail =>
        let value := tail.dropWhile isWsChar
        if value.any isLineTerm then none
        else some (c :: rest.takeWhile isIdentChar, value)
      | _ => none
    else none

/-- `parseLine` of the source: blank after trimming → empty; `#` after
trimming → comment (original text retained); key/value match → variable
(decoded value, raw = the original line); everything else → comment. -/
def parseLine (line : List Char) : Line :=
  let trimmed := trimChars line
  if trimmed.isEmpty then .empty
  else if trimmed.head? = some '#' then .comment line
  else
    match matchVarLine line with
    | some (key, value) => .var key (unquoteValue value) line
    | none => .comment line

/-- JavaScript `content.split(/\r?\n/)`. -/
def splitLines : List Char → List (List Char)
  | [] => [[]]
  | '\r' :: '\n' :: rest => [] :: splitLines rest
  | '\n' :: rest => [] :: splitLines rest
  | c :: rest =>
    match splitLines rest with
    | [] => [[c]]
    | l :: ls => (c :: l) :: ls

/-- A semantic block (the `Block` union of `types.ts`); the linked list is
a `List Block`, a JS `null` document is `[]`. -/
inductive Block where
  | comment (lines : List (List Char))
  | empty
  | var (key value raw : List Char) (comments : List (List Char))
deriving DecidableEq

/-- The lookahead helper of `parseBlocks`: is the next non-empty line a
comment (rather than a variable or end of input)? -/
def isNextNonEmptyComment : List Line → Bool
  | [] => false
  | .comment _ :: _ => true
  | .var _ _ _ :: _ => false
  | .empty :: rest => isNextNonEmptyComment rest

/-- The grouping loop of `parseBlocks`, with its mutable state made
explicit: `pending` is `pendingComments`, `blankRun` is
`consecutiveEmptyLines > 0`, `hasEmpty` is `hasEmptyLineAfterComment`.
The trailing-comment flush of the source follows the loop. -/
def parseBlocksAux : List Line → List (List Char) → Bool → Bool → List Block
  | [], pending, _, _ => if pending.isEmpty then [] else [.comment pending]
  | .var k v r :: rest, pending, _, _ =>
    .var k v r pending :: parseBlocksAux rest [] false false
  | .comment c :: rest, pending, _, hasEmpty =>
    if !pending.isEmpty && hasEmpty then
      .comment pending :: parseBlocksAux rest [c] false false
    else
      parseBlocksAux rest (pending ++ [c]) false hasEmpty
  | .empty :: rest, pending, blankRun, hasEmpty =>
    if !pending.isEmpty then
      if isNextNonEmptyComment rest then
        if blankRun then parseBlocksAux rest pending true hasEmpty
        else parseBlocksAux rest (pending ++ [[]]) true true
      else
        if blankRun then parseBlocksAux rest pending true hasEmpty
        else .comment pending :: .empty :: parseBlocksAux rest [] true false
    else
      if blankRun then parseBlocksAux rest [] true hasEmpty
      else .empty :: parseBlocksAux rest [] true hasEmpty

/-- `parseBlocks` of the source. -/
def parseBlocks (lines : List Line) : List Block :=
  parseBlocksAux lines [] false false

/-- `parseEnvFile` of the source: split, classify lines, group. -/
def parseEnvFile (content : List Char) : List Block :=
  parseBlocks ((splitLines content).map parseLine)

/-- `serializeBlocks` of the source: expand blocks back to flat lines. -/
def serializeBlocks : List Block → List Line
  | [] => []
  | .var k v r cs :: rest => cs.map Line.comment ++ Line.var k v r :: serializeBlocks rest
  | .comment ls :: rest => ls.map Line.comment ++ serializeBlocks rest
  | .empty :: rest => Line.empty :: serializeBlocks rest

/-- The per-line rendering of `serializeToString`: a variable is emitted as
`key=quoteValue(value)` (the stored `raw` is not used). -/
def lineToText : Line → List Char
  | .comment content => content
  | .empty => []
  | .var k v _ => k ++ '=' :: quoteValue v

/-- JavaScript `lines.join("\n")`. -/
def joinLines : List (List Char) → List Char
  | [] => []
  | [l] => l
  | l :: rest => l ++ '\n' :: joinLines rest

/-- `serializeToString` of the source. -/
def serializeToString (head : List Block) : List Char :=
  joinLines ((serializeBlocks head).map lineToText)

/-! ## The merger (`src/core/merger.ts`) -/

/-- `isVariableBlock` type guard. -/
def isVariableBlock : Block → Bool
  | .var _ _ _ _ => true
  | _ => false

/-- `isCommentBlock` type guard. -/
def isCommentBlock : Block → Bool
  | .comment _ => true
  | _ => false

/-- An empty (blank-line) block. -/
def isEmptyBlock : Block → Bool
  | .empty => true
  | _ => false

/-- Is this block a variable block carrying the given key? -/
def isVarKey (key : List Char) : Block → Bool
  | .var k _ _ _ => k = key
  | _ => false

/-- `findVariableBlock` of the source: first variable block with the key. -/
def findVariableBlock (head : List Block) (key : List Char) : Option Block :=
  head.find? (isVarKey key)

/-- Does the document contain a variable block with the key? -/
def hasVarKey (key : List Char) (head : List Block) : Bool :=
  (findVariableBlock head key).isSome

/-- Position of the first variable block with the key: since JS node
identity is pointer identity and `findVariableBlock` returns the first
match, `insertBefore` on its result means insertion at this index. -/
def findVarIdx (key : List Char) (head : List Block) : Option Nat :=
  head.findIdx? (isVarKey key)

/-- `findIntersectionPoint` of the source, index form: scan the source tail
forward; for the first variable whose key exists in `head`, return the
index (in `head`) of that base variable block. -/
def findIntersectionIdx : List Block → List Block → Option Nat
  | [], _ => none
  | .var k _ _ _ :: rest, head =>
    match findVarIdx k head with
    | some i => some i
    | none => findIntersectionIdx rest head
  | _ :: rest, head => findIntersectionIdx rest head

/-- `insertBefore` of the source, index form: splice a block in front of
position `i`. -/
def insertAt (head : List Block) (i : Nat) (b : Block) : List Block :=
  head.take i ++ b :: head.drop i

/-- Pass 1's in-place update of an existing variable (`baseBlock.value = …;
baseBlock.raw = key + "=" + quoteValue(value); baseBlock.comments = …`),
applied to the first block carrying the key. -/
def overwriteFirst (key value : List Char) (comments : List (List Char)) :
    List Block → List Block
  | [] => []
  | .var k v r cs :: rest =>
    if k = key then .var k value (k ++ '=' :: quoteValue value) comments :: rest
    else .var k v r cs :: overwriteFirst key value comments rest
  | b :: rest => b :: overwriteFirst key value comments rest

/-- Pass 1 of `mergeTwo`: walk the source; update existing keys in place,
splice new keys before the intersection point or append them at the tail. -/
def mergePass1 : List Block → List Block → List Block
  | head, [] => head
  | head, .var k v r cs :: rest =>
    if hasVarKey k head then
      mergePass1 (overwriteFirst k v cs head) rest
    else
      match findIntersectionIdx rest head with
      | some i => mergePass1 (insertAt head i (.var k v r cs)) rest
      | none => mergePass1 (head ++ [.var k v r cs]) rest
  | head, _ :: rest => mergePass1 head rest

/-- The key of `findNextVariable` applied to a source tail: the first
variable block's key. -/
def firstVarKey : List Block → Option (List Char)
  | [] => none
  | .var k _ _ _ :: _ => some k
  | _ :: rest => firstVarKey rest

/-- `lines.join("\n").trim()`, the comparison form of `areBlocksEqual`. -/
def joinTrim (ls : List (List Char)) : List Char :=
  trimChars (joinLines ls)

/-- `areBlocksEqual` of the source (the JS `null` cases cannot arise in the
list model; differing tags compare unequal). -/
def areBlocksEqual : Block → Block → Bool
  | .comment a, .comment b => joinTrim a = joinTrim b
  | .empty, .empty => true
  | .var k v _ _, .var k2 v2 _ _ => k = k2 && v = v2
  | _, _ => false

/-- `hasCommentBlockBefore` of the source, index form: walk back from the
block at position `i`, skipping empty blocks, and compare the first
non-empty block found with `c`; the backward walk from the head itself
(`i = 0`) finds nothing. -/
def hasCommentBlockBefore (head : List Block) (i : Nat) (c : Block) : Bool :=
  match ((head.take i).reverse.find? fun b => !isEmptyBlock b) with
  | some b => areBlocksEqual b c
  | none => false

/-- `insertCommentBlock` of the source: `rest` is the source tail after the
comment node (so `firstVarKey rest` is `findNextVariable(comment)`'s key). -/
def insertCommentBlock (head : List Block) (ls : List (List Char))
    (rest : List Block) : List Block :=
  match firstVarKey rest with
  | some k =>
    match findVarIdx k head with
    | some i =>
      if hasCommentBlockBefore head i (.comment ls) then head
      else insertAt head i (.comment ls)
    | none =>
      if hasCommentBlockBefore head 0 (.comment ls) then head
      else head ++ [.comment ls]
  | none =>
    if hasCommentBlockBefore head 0 (.comment ls) then head
    else head ++ [.comment ls]

/-- Pass 2 of `mergeTwo`: walk the source again and position each
standalone comment block. -/
def mergePass2 : List Block → List Block → List Block
  | head, [] => head
  | head, .comment ls :: rest => mergePass2 (insertCommentBlock head ls rest) rest
  | head, _ :: rest => mergePass2 head rest

/-- `mergeTwo` of the source: pass 1 (variables), then pass 2 (comments). -/
def mergeTwo (base source : List Block) : List Block :=
  mergePass2 (mergePass1 base source) source

/-- `mergeSources` of the source: drop null documents, left-fold
`mergeTwo`. -/
def mergeSources (sources : List (List Block)) : List Block :=
  match sources.filter (fun s => !s.isEmpty) with
  | [] => []
  | s :: rest => rest.foldl mergeTwo s

/-! ## Observation and specification-side definitions

These are not source transcriptions; they state the claims: the value of a
found variable, the rightmost definition of a key, the key sequence of a
document, the comment lines a document carries, and the observational view
of a document (everything except the stored `raw` text). -/

/-- The value field of a variable block. -/
def blockValue : Block → Option (List Char)
  | .var _ v _ _ => some v
  | _ => none

/-- The value `findVariable` yields for a key. -/
def findVariableValue (head : List Block) (key : List Char) : Option (List Char) :=
  (findVariableBlock head key).bind blockValue

/-- The last (rightmost) variable block with the key. -/
def lastVariableBlock (key : List Char) : List Block → Option Block
  | [] => none
  | b :: rest =>
    match lastVariableBlock key rest with
    | some r => some r
    | none => if isVarKey key b then some b else none

/-- The value of the rightmost definition of a key. -/
def lastVarValue (key : List Char) (d : List Block) : Option (List Char) :=
  (lastVariableBlock key d).bind blockValue

/-- The keys of a document's variable blocks, in order. -/
def varKeys (d : List Block) : List (List Char) :=
  d.filterMap fun b =>
    match b with
    | .var k _ _ _ => some k
    | _ => none

/-- Every comment line a document carries (standalone blocks and variable
comments), in document order. -/
def commentLinesOf : List Block → List (List Char)
  | [] => []
  | .comment ls :: rest => ls ++ commentLinesOf rest
  | .var _ _ _ cs :: rest => cs ++ commentLinesOf rest
  | .empty :: rest => commentLinesOf rest

/-- A block stripped of its `raw` text: the observational content of a
document (keys, decoded values, comment lines, blank structure). -/
inductive ObsBlock where
  | comment (lines : List (List Char))
  | empty
  | var (key value : List Char) (comments : List (List Char))
deriving DecidableEq

/-- Forget the `raw` field of a block. -/
def obsBlock : Block → ObsBlock
  | .comment ls => .comment ls
  | .empty => .empty
  | .var k v _ cs => .var k v cs

/-- The observational view of a document. -/
def obsDoc (d : List Block) : List ObsBlock :=
  d.map obsBlock

/-- A key as the variable grammar produces it: `[A-Za-z_][A-Za-z0-9_]*`. -/
def goodKey : List Char → Bool
  | [] => false
  | c :: rest => isIdentStart c && rest.all isIdentChar

/-- A value character that survives the quote/decode round trip: not a
backslash (the decoder's escape order misreads `\` before `n`, `r`, `t`)
and not a whitespace character other than space, tab, LF, CR (the others
are silently trimmed because `quoteValue` does not quote them). -/
def safeValueChar (c : Char) : Bool :=
  c ≠ '\\' && (!isWsChar c || c = ' ' || c = '\t' || c = '\n' || c = '\r')

/-- A round-trip-safe value. -/
def safeValue (v : List Char) : Bool := v.all safeValueChar

/-- A text character for the document round trip: additionally no CR, so
that line splitting is unambiguous. -/
def safeTextChar (c : Char) : Bool :=
  c ≠ '\\' && (!isWsChar c || c = ' ' || c = '\t' || c = '\n')

/-- A round-trip-safe input text. -/
def safeText (t : List Char) : Bool := t.all safeTextChar

/-- The content of a comment line, if any. -/
def commentContent : Line → Option (List Char)
  | .comment c => some c
  | _ => none

/-- The shape pass 1 leaves behind when it overwrites an existing variable
block with a same-key source block: value and comments taken from the
source block, `raw` re-derived from key and quoted value. -/
def overwrittenForm (key : List Char) : Block → Block
  | .var _ v _ cs => .var key v (key ++ '=' :: quoteValue v) cs
  | b => b

/-! ### Well-formedness of parsed documents

The following predicates describe the exact shapes `parseBlocks` can emit;
they are what the document round trip (claim C3) rests on. -/

/-- A stored comment line: it classifies as a comment again (hence its
trimmed form is non-empty) and contains no line break characters. -/
def lineOk (c : List Char) : Prop :=
  parseLine c = Line.comment c ∧ '\n' ∉ c ∧ '\r' ∉ c

/-- A well-formed classified line (what `parseLine` produces on a
round-trip-safe text). -/
def lineGood : Line → Prop
  | .comment c => lineOk c
  | .empty => True
  | .var k v _ => goodKey k = true ∧ safeValue v = true

/-- Does the block list open with a comment line (a standalone comment
block, or a variable block with attached comments)? -/
def startsWithCommentLine : List Block → Prop
  | .comment _ :: _ => True
  | .var _ _ _ (_ :: _) :: _ => True
  | _ => False

/-- Either nothing, or a variable block with no attached comments: what may
follow the blank block after a flushed standalone comment block. -/
def headVarNoCommentsOrNil : List Block → Prop
  | [] => True
  | .var _ _ _ [] :: _ => True
  | _ => False

/-- Does the block list not open with a blank block? -/
def headNotEmptyBlock : List Block → Prop
  | .empty :: _ => False
  | _ => True

/-- The shapes `parseBlocks` emits: variable blocks carry well-formed keys,
round-trip-safe values and well-formed comment lines; a standalone comment
block either ends the document, or is followed by one blank block and then
a comment-free variable block or nothing, or carries the compressed blank
marker and is directly followed by a comment line; blank blocks never
repeat. -/
inductive WFDoc : List Block → Prop
  | nil : WFDoc []
  | var {k v r cs rest} : goodKey k = true → safeValue v = true →
      (∀ c ∈ cs, lineOk c) → WFDoc rest → WFDoc (.var k v r cs :: rest)
  | commentLast {core} : core ≠ [] → (∀ c ∈ core, lineOk c) →
      WFDoc [.comment core]
  | commentEmpty {core rest} : core ≠ [] → (∀ c ∈ core, lineOk c) →
      headVarNoCommentsOrNil rest → WFDoc rest →
      WFDoc (.comment core :: .empty :: rest)
  | commentMark {core rest} : core ≠ [] → (∀ c ∈ core, lineOk c) →
      startsWithCommentLine rest → WFDoc rest →
      WFDoc (.comment (core ++ [[]]) :: rest)
  | emptyB {rest} : headNotEmptyBlock rest → WFDoc rest →
      WFDoc (.empty :: rest)

/-- The classified line sequence obtained by re-parsing the serialization
of a well-formed block: comment lines classify as comments again, the
compressed blank marker becomes a blank line, and a variable block becomes
its comment lines followed by a re-derived variable line. -/
def reSerBlock : Block → List Line
  | .var k v _ cs => cs.map Line.comment ++ [.var k v (k ++ '=' :: quoteValue v)]
  | .comment ls => ls.map fun c => if c.isEmpty then Line.empty else Line.comment c
  | .empty => [Line.empty]

/-- The classified line sequence of a re-parsed serialized document. -/
def reSer (d : List Block) : List Line :=
  (d.map reSerBlock).flatten

/-- The per-character form of `escapeDouble` on backslash-free input:
`"`, LF, CR and TAB become backslash escapes, all else is unchanged. -/
def encChar (c : Char) : List Char :=
  if c = '"' then ['\\', '"']
  else if c = '\n' then ['\\', 'n']
  else if c = '\r' then ['\\', 'r']
  else if c = '\t' then ['\\', 't']
  else [c]

/-! ## Claim C9: the `"# c\n\n\n# c2"` scenario -/

/-- C9: parsing `"# c\n\n\n# c2"` yields exactly two comment blocks, the
first `["# c", ""]` (the blank run compressed into the first block as a
single empty-string marker), the second `["# c2"]`. -/
theorem c9_comment_blank_scenario :
    parseEnvFile (str "# c\n\n\n# c2") =
      [.comment [str "# c", []], .comment [str "# c2"]] := by
  decide

/-! ## Claim C1: merge idempotence fails on anchorless comment blocks -/

/-- C1: idempotence of `mergeSources` fails on the parsed documents
`a = parse "X=1"`, `b = parse "# t"`: re-merging the merged document with
the same sources appends the trailing comment block again, because the
"already exists at the head" check `hasCommentBlockBefore(head, head, c)`
walks backwards from the head itself and necessarily finds nothing.  So
`serialize(mergeSources(mergeSources(a,b),a,b))` is `"X=1\n# t\n# t"`
while `serialize(mergeSources(a,b))` is `"X=1\n# t"`. -/
theorem c1_idempotence_fails :
    serializeToString
        (mergeSources
          [mergeSources [parseEnvFile (str "X=1"), parseEnvFile (str "# t")],
           parseEnvFile (str "X=1"), parseEnvFile (str "# t")]) =
      str "X=1\n# t\n# t" ∧
    serializeToString
        (mergeSources [parseEnvFile (str "X=1"), parseEnvFile (str "# t")]) =
      str "X=1\n# t" ∧
    serializeToString
        (mergeSources
          [mergeSources [parseEnvFile (str "X=1"), parseEnvFile (str "# t")],
           parseEnvFile (str "X=1"), parseEnvFile (str "# t")]) ≠
      serializeToString
        (mergeSources [parseEnvFile (str "X=1"), parseEnvFile (str "# t")]) := by
  refine ⟨by decide, by decide, by decide⟩

/-! ## Claim C5: the equal-block-at-head check never fires -/

/-- C5: merging the comment-only document `parse "# t"` into an identical
base appends the comment again although an equal comment block is already
at the head: the backward walk of `hasCommentBlockBefore` from the head
position finds no predecessor, so the check is always false and the
anchorless comment is appended unconditionally. -/
theorem c5_head_check_dead :
    mergeSources [parseEnvFile (str "# t"), parseEnvFile (str "# t")] =
      [.comment [str "# t"], .comment [str "# t"]] ∧
    hasCommentBlockBefore [Block.comment [str "# t"]] 0
        (.comment [str "# t"]) = false := by
  refine ⟨by decide, by decide⟩

/-! ## Claim C3, counterexample: `parse ∘ serialize` changes a decoded value -/

/-- C3 fails as stated: the document `parse "A=\n"` (a backslash followed
by the letter `n` in the source text) decodes the value to the two
characters backslash-`n`; serializing quotes it as `"\\n"` and re-parsing
decodes that to backslash-LF, because the unescape chain rewrites `\n`
before `\\`.  So `parse(serialize(d))` is not observationally identical to
`d`, and `decode ∘ quote` is not the identity on decode's image. -/
theorem c3_roundtrip_counterexample :
    obsDoc (parseEnvFile (serializeToString (parseEnvFile (str "A=\\n")))) ≠
        obsDoc (parseEnvFile (str "A=\\n")) ∧
    findVariableValue (parseEnvFile (str "A=\\n")) (str "A") =
        some ['\\', 'n'] ∧
    findVariableValue (parseEnvFile (serializeToString (parseEnvFile (str "A=\\n"))))
        (str "A") = some ['\\', '\n'] := by
  refine ⟨by decide, by decide, by decide⟩

/-! ## Claim C4, counterexample: source-only variables can be reordered -/

/-- C4's consequence fails as stated: merging
`b = parse "N1=1\nY=9\nN2=2\nX=9\nN3=3"` into `a = parse "X=1\nY=2"`
produces the key order `N2, X, N1, Y, N3`, so the variables `N1, N2, N3`
present only in `b` appear as `N2, N1, N3` — not in the relative order
they had in `b`: each new key is spliced before the base match of the
next shared key, and the shared keys `Y`, `X` appear in `b` in the
opposite order to `a`. -/
theorem c4_order_counterexample :
    (varKeys (mergeSources
        [parseEnvFile (str "X=1\nY=2"),
         parseEnvFile (str "N1=1\nY=9\nN2=2\nX=9\nN3=3")])).filter
        (fun k => !hasVarKey k (parseEnvFile (str "X=1\nY=2"))) =
      [str "N2", str "N1", str "N3"] ∧
    (varKeys (parseEnvFile (str "N1=1\nY=9\nN2=2\nX=9\nN3=3"))).filter
        (fun k => !hasVarKey k (parseEnvFile (str "X=1\nY=2"))) =
      [str "N1", str "N2", str "N3"] := by
  refine ⟨by decide, by decide⟩

/-! ## Claim C6, counterexample: a blank run between comment groups yields
no `BlankNode` -/

/-- C6 fails as stated: `"# a\n\n# b"` contains a run of one blank line,
yet its parse contains no blank block at all — the run is absorbed into
the first comment block as the compressed empty-string marker. -/
theorem c6_blankrun_counterexample :
    (splitLines (str "# a\n\n# b")).map parseLine =
        [.comment (str "# a"), .empty, .comment (str "# b")] ∧
    parseEnvFile (str "# a\n\n# b") =
        [.comment [str "# a", []], .comment [str "# b"]] ∧
    (parseEnvFile (str "# a\n\n# b")).filter isEmptyBlock = [] := by
  refine ⟨by decide, by decide, by decide⟩

/-! ## Claim C8, counterexample: `raw` after parse is the original line -/

/-- C8 fails as stated: parsing the line `"A = x"` stores the original
line as `raw`, which is not the re-derived serializable form `A=x`. -/
theorem c8_raw_counterexample :
    findVariableBlock (parseEnvFile (str "A = x")) (str "A") =
        some (.var (str "A") (str "x") (str "A = x") []) ∧
    str "A = x" ≠ str "A" ++ '=' :: quoteValue (str "x") := by
  refine ⟨by decide, by decide⟩

/-! ## Claim C10: a lone quote as the whole value decodes to the empty
string -/

/-- C10: when the trimmed raw value is a single quote character (either a
single or a double quote), the wrapped-in-quotes check succeeds on that
one-character string, both quote characters are stripped, and the decoded
value is empty; in particular `KEY='` and `KEY="` parse to the value `""`. -/
theorem c10_lone_quote :
    (∀ v, trimChars v = [squote] → unquoteValue v = []) ∧
    (∀ v, trimChars v = ['"'] → unquoteValue v = []) ∧
    parseLine (str "KEY=" ++ [squote]) =
        .var (str "KEY") [] (str "KEY=" ++ [squote]) ∧
    parseLine (str "KEY=" ++ ['"']) =
        .var (str "KEY") [] (str "KEY=" ++ ['"']) := by
  refine ⟨?_, ?_, by decide, by decide⟩
  · intro v hv
    simp [unquoteValue, hv]
  · intro v hv
    simp [unquoteValue, hv, squote, unescapeDouble, replace2]

/-- Witness for C10 at a concrete input. -/
theorem c10_lone_quote_witness :
    unquoteValue [squote] = [] ∧ unquoteValue ['"'] = [] :=
  ⟨c10_lone_quote.1 [squote] (by decide), c10_lone_quote.2.1 ['"'] (by decide)⟩

/-! ## Claim C6, amended: blank runs parse like a single blank line -/

/-- The lookahead skips over any number of leading blank lines. -/
theorem isNextNonEmptyComment_replicate (n : Nat) (ys : List Line) :
    isNextNonEmptyComment (List.replicate n Line.empty ++ ys) =
      isNextNonEmptyComment ys := by
  induction n with
  | zero => rfl
  | succ n ih => simpa [List.replicate_succ, isNextNonEmptyComment] using ih

/-- The lookahead cannot distinguish a blank run from a single blank line. -/
theorem isNextNonEmptyComment_collapse (xs : List Line) (n : Nat) (ys : List Line) :
    isNextNonEmptyComment (xs ++ (List.replicate (n + 1) Line.empty ++ ys)) =
      isNextNonEmptyComment (xs ++ Line.empty :: ys) := by
  induction xs with
  | nil =>
    simp [isNextNonEmptyComment_replicate, isNextNonEmptyComment,
      List.replicate_succ]
  | cons l xs ih => cases l <;> simp [isNextNonEmptyComment, ih]

/-- With the blank-run flag set, a further blank line leaves the grouping
state untouched. -/
theorem parseBlocksAux_absorb (rest : List Line) (p : List (List Char)) (h : Bool) :
    parseBlocksAux (Line.empty :: rest) p true h = parseBlocksAux rest p true h := by
  rcases p with _ | ⟨c, p⟩
  · simp [parseBlocksAux]
  · by_cases hc : isNextNonEmptyComment rest <;> simp [parseBlocksAux, hc]

/-- With the blank-run flag set, a whole run of blank lines is absorbed. -/
theorem parseBlocksAux_absorb_replicate (n : Nat) (rest : List Line)
    (p : List (List Char)) (h : Bool) :
    parseBlocksAux (List.replicate n Line.empty ++ rest) p true h =
      parseBlocksAux rest p true h := by
  induction n with
  | zero => rfl
  | succ n ih =>
    rw [List.replicate_succ, List.cons_append, parseBlocksAux_absorb]
    exact ih

/-- Replacing a run of `n+1` blank lines by a single blank line does not
change the grouping, whatever the surrounding lines and state. -/
theorem parseBlocksAux_collapse (ls1 : List Line) (n : Nat) (ls2 : List Line) :
    ∀ p br h, parseBlocksAux (ls1 ++ (List.replicate (n + 1) Line.empty ++ ls2)) p br h =
      parseBlocksAux (ls1 ++ Line.empty :: ls2) p br h := by
  induction ls1 with
  | nil =>
    intro p br h
    rcases p with _ | ⟨c, p⟩
    · by_cases hbr : br <;>
        simp [parseBlocksAux, List.replicate_succ, isNextNonEmptyComment_replicate,
          parseBlocksAux_absorb_replicate, hbr]
    · by_cases hbr : br <;> by_cases hc : isNextNonEmptyComment ls2 <;>
        simp [parseBlocksAux, List.replicate_succ, isNextNonEmptyComment_replicate,
          parseBlocksAux_absorb_replicate, hbr, hc]
  | cons l ls1 ih =>
    intro p br h
    cases l with
    | comment c => simp [parseBlocksAux, ih]
    | var k v r => simp [parseBlocksAux, ih]
    | empty =>
      have hcg := isNextNonEmptyComment_collapse ls1 n ls2
      rcases p with _ | ⟨c, p⟩
      · by_cases hbr : br <;> simp [parseBlocksAux, hcg, ih, hbr]
      · by_cases hbr : br <;>
          by_cases hc : isNextNonEmptyComment (ls1 ++ Line.empty :: ls2) <;>
          simp [parseBlocksAux, hcg, ih, hbr, hc]

/-- A line classifies as blank exactly when its trimmed form is empty. -/
theorem parseLine_eq_empty_iff (line : List Char) :
    parseLine line = Line.empty ↔ trimChars line = [] := by
  unfold parseLine
  by_cases hl : (trimChars line).isEmpty
  · simp_all [List.isEmpty_iff]
  · have hl2 : trimChars line ≠ [] := by simpa [List.isEmpty_iff] using hl
    simp only [hl, Bool.false_eq_true, if_false]
    constructor
    · intro hcontra
      split at hcontra
      · exact absurd hcontra (by simp)
      · split at hcontra <;> simp_all
    · intro hcontra
      exact absurd hcontra hl2

/-- C6, amended: any run of `N ≥ 1` consecutive blank (whitespace-only)
lines parses exactly like a single blank line — so a run never produces
more than one blank block, and the parse does not depend on the length of
the run (between two comment groups it produces none at all, see the
counterexample). -/
theorem c6_blank_compression_amended :
    (∀ ls1 ls2 n, parseBlocks (ls1 ++ List.replicate (n + 1) Line.empty ++ ls2) =
        parseBlocks (ls1 ++ Line.empty :: ls2)) ∧
    (∀ line, parseLine line = Line.empty ↔ trimChars line = []) := by
  refine ⟨fun ls1 ls2 n => ?_, parseLine_eq_empty_iff⟩
  rw [List.append_assoc]
  exact parseBlocksAux_collapse ls1 n ls2 [] false false

/-! ## Claim C7: parse is total and preserves unparseable lines -/

/-- A line that is not blank, not a comment after trimming, and not a
variable match is classified as a comment with its original text. -/
theorem parseLine_comment_of_unmatched (line : List Char)
    (h1 : trimChars line ≠ []) (h2 : (trimChars line).head? ≠ some '#')
    (h3 : matchVarLine line = none) : parseLine line = .comment line := by
  unfold parseLine
  have h1b : (trimChars line).isEmpty = false := by
    simpa [List.isEmpty_iff] using h1
  simp [h1b, h2, h3]

/-- A line classified as a comment keeps its original text, and its
trimmed form is non-empty. -/
theorem parseLine_comment_inv {line c : List Char}
    (h : parseLine line = .comment c) : c = line ∧ trimChars line ≠ [] := by
  unfold parseLine at h
  by_cases hl : (trimChars line).isEmpty
  · simp [hl] at h
  · have hl2 : trimChars line ≠ [] := by simpa [List.isEmpty_iff] using hl
    simp only [hl, Bool.false_eq_true, if_false] at h
    refine ⟨?_, hl2⟩
    split at h
    · exact (Line.comment.injEq _ _ ▸ h).symm ▸ rfl
    · split at h <;> simp_all

/-- Every comment line fed to the grouping pass survives into the output
blocks (as a standalone comment block's line or a variable's attached
comment), in order; the only extra lines the output carries are the
empty-string blank markers, which the trimming filter removes. -/
theorem commentLinesOf_parseBlocksAux (ls : List Line) : ∀ p br h,
    (commentLinesOf (parseBlocksAux ls p br h)).filter
        (fun l => !(trimChars l).isEmpty) =
      (p ++ ls.filterMap commentContent).filter
        (fun l => !(trimChars l).isEmpty) := by
  induction ls with
  | nil =>
    intro p br h
    by_cases hp : p.isEmpty
    · simp [parseBlocksAux, hp, commentLinesOf, List.isEmpty_iff.mp hp]
    · simp [parseBlocksAux, hp, commentLinesOf]
  | cons l ls ih =>
    intro p br h
    cases l with
    | var k v r =>
      simp [parseBlocksAux, commentLinesOf, List.filter_append, ih,
        commentContent]
    | comment c =>
      rcases p with _ | ⟨c0, p⟩ <;> by_cases hh : h <;>
        simp [parseBlocksAux, commentLinesOf, List.filter_append,
          List.filter_cons, ih, hh, commentContent]
    | empty =>
      have htriv : (trimChars ([] : List Char)).isEmpty = true := by decide
      rcases p with _ | ⟨c0, p⟩ <;> by_cases hbr : br <;>
        by_cases hc : isNextNonEmptyComment ls <;>
        simp [parseBlocksAux, commentLinesOf, List.filter_append,
          List.filter_cons, ih, hbr, hc, htriv, commentContent]

/-- C7: the parser is total by construction, every line that is neither
blank, nor a `#`-comment after trimming, nor a variable-grammar match is
preserved as a comment line with its original text, and all comment lines
are preserved (in order) in the parsed document. -/
theorem c7_parse_totality :
    (∀ line, trimChars line ≠ [] → (trimChars line).head? ≠ some '#' →
        matchVarLine line = none → parseLine line = .comment line) ∧
    (∀ content,
        (commentLinesOf (parseEnvFile content)).filter
            (fun l => !(trimChars l).isEmpty) =
          ((splitLines content).map parseLine).filterMap commentContent) := by
  constructor
  · exact parseLine_comment_of_unmatched
  · intro content
    rw [parseEnvFile, parseBlocks, commentLinesOf_parseBlocksAux]
    simp only [List.nil_append]
    apply List.filter_eq_self.mpr
    intro a ha
    obtain ⟨l', hl', hc⟩ := List.mem_filterMap.mp ha
    obtain ⟨line, _, hline⟩ := List.mem_map.mp hl'
    cases l' with
    | comment c =>
      have hca : c = a := by simpa [commentContent] using hc
      have h2 := parseLine_comment_inv hline
      have h3 : trimChars a ≠ [] := by
        rw [← hca, h2.1]
        exact h2.2
      simpa [List.isEmpty_iff] using h3
    | empty => exact absurd hc (by simp [commentContent])
    | var k v r => exact absurd hc (by simp [commentContent])

/-- Witness for C7 at a concrete unparseable line. -/
theorem c7_parse_totality_witness :
    parseLine (str "not a var!") = .comment (str "not a var!") :=
  c7_parse_totality.1 (str "not a var!") (by decide) (by decide) (by decide)

/-! ## Merger lemmas (shared by claims C2, C4, C8) -/

theorem hasVarKey_nil (K : List Char) : hasVarKey K [] = false := rfl

theorem findVariableBlock_cons (b : Block) (rest : List Block) (K : List Char) :
    findVariableBlock (b :: rest) K =
      if isVarKey K b then some b else findVariableBlock rest K := by
  by_cases h : isVarKey K b <;> simp [findVariableBlock, h]

theorem hasVarKey_cons (b : Block) (rest : List Block) (K : List Char) :
    hasVarKey K (b :: rest) = (isVarKey K b || hasVarKey K rest) := by
  by_cases h : isVarKey K b <;> simp [hasVarKey, findVariableBlock_cons, h]

theorem hasVarKey_append (l1 l2 : List Block) (K : List Char) :
    hasVarKey K (l1 ++ l2) = (hasVarKey K l1 || hasVarKey K l2) := by
  simp [hasVarKey, findVariableBlock, List.find?_append, Option.isSome_or]

/-- Splicing a block whose key is not `K` (or that is no variable at all)
anywhere into a document does not change which block `findVariableBlock`
returns for `K`. -/
theorem findVariableBlock_middle_neg (l1 l2 : List Block) (b : Block)
    (K : List Char) (hb : isVarKey K b = false) :
    findVariableBlock (l1 ++ b :: l2) K = findVariableBlock (l1 ++ l2) K := by
  unfold findVariableBlock
  rw [List.find?_append, List.find?_append, List.find?_cons_of_neg]
  simp [hb]

/-- Splicing a `K`-keyed block into a document that has none makes it the
block `findVariableBlock` returns for `K`. -/
theorem findVariableBlock_middle_new (l1 l2 : List Block) (b : Block)
    (K : List Char) (hnone : findVariableBlock (l1 ++ l2) K = none)
    (hb : isVarKey K b = true) :
    findVariableBlock (l1 ++ b :: l2) K = some b := by
  unfold findVariableBlock at *
  rw [List.find?_append] at hnone
  rw [List.find?_append, List.find?_cons_of_pos _ hb]
  rcases Option.or_eq_none.mp hnone with ⟨h1, _⟩
  simp [h1]

theorem overwriteFirst_of_not_has (k v : List Char) (cs : List (List Char)) :
    ∀ h, hasVarKey k h = false → overwriteFirst k v cs h = h := by
  intro h
  induction h with
  | nil => intro _; rfl
  | cons b rest ih =>
    intro hh
    rw [hasVarKey_cons, Bool.or_eq_false_iff] at hh
    cases b with
    | var k2 v2 r2 cs2 =>
      have hk2 : ¬k2 = k := by simpa [isVarKey] using hh.1
      simp [overwriteFirst, hk2, ih hh.2]
    | comment ls => simp [overwriteFirst, ih hh.2]
    | empty => simp [overwriteFirst, ih hh.2]

/-- Overwriting the first `k`-keyed block leaves it as the re-derived
form: source value, re-generated raw, source comments. -/
theorem findVariableBlock_overwriteFirst_self (k v : List Char)
    (cs : List (List Char)) :
    ∀ h, hasVarKey k h = true →
      findVariableBlock (overwriteFirst k v cs h) k =
        some (.var k v (k ++ '=' :: quoteValue v) cs) := by
  intro h
  induction h with
  | nil => intro hh; simp [hasVarKey_nil] at hh
  | cons b rest ih =>
    intro hh
    rw [hasVarKey_cons] at hh
    cases b with
    | var k2 v2 r2 cs2 =>
      by_cases hk2 : k2 = k
      · subst hk2
        simp [overwriteFirst, findVariableBlock_cons, isVarKey]
      · have hrest : hasVarKey k rest = true := by
          simpa [isVarKey, hk2] using hh
        simp [overwriteFirst, hk2, findVariableBlock_cons, isVarKey, ih hrest]
    | comment ls =>
      have hrest : hasVarKey k rest = true := by simpa [isVarKey] using hh
      simp [overwriteFirst, findVariableBlock_cons, isVarKey, ih hrest]
    | empty =>
      have hrest : hasVarKey k rest = true := by simpa [isVarKey] using hh
      simp [overwriteFirst, findVariableBlock_cons, isVarKey, ih hrest]

theorem varKeys_nil : varKeys [] = [] := rfl

theorem varKeys_cons_var (k v r : List Char) (cs : List (List Char))
    (rest : List Block) : varKeys (.var k v r cs :: rest) = k :: varKeys rest := rfl

theorem varKeys_cons_comment (ls : List (List Char)) (rest : List Block) :
    varKeys (.comment ls :: rest) = varKeys rest := rfl

theorem varKeys_cons_empty (rest : List Block) :
    varKeys (.empty :: rest) = varKeys rest := rfl

theorem varKeys_append (l1 l2 : List Block) :
    varKeys (l1 ++ l2) = varKeys l1 ++ varKeys l2 := by
  simp [varKeys]

/-- Overwriting a `k`-keyed block does not affect lookups of other keys. -/
theorem findVariableBlock_overwriteFirst_other (k v K : List Char)
    (cs : List (List Char)) (hne : K ≠ k) :
    ∀ h, findVariableBlock (overwriteFirst k v cs h) K = findVariableBlock h K := by
  intro h
  induction h with
  | nil => rfl
  | cons b rest ih =>
    cases b with
    | var k2 v2 r2 cs2 =>
      by_cases hk2 : k2 = k
      · subst hk2
        have hKb : ¬k2 = K := fun hcon => hne hcon.symm
        simp [overwriteFirst, findVariableBlock_cons, isVarKey, hKb]
      · simp [overwriteFirst, hk2, findVariableBlock_cons, ih]
    | comment ls => simp [overwriteFirst, findVariableBlock_cons, ih]
    | empty => simp [overwriteFirst, findVariableBlock_cons, ih]

/-- Overwriting never changes which keys are present. -/
theorem hasVarKey_overwriteFirst (k v K : List Char) (cs : List (List Char)) :
    ∀ h, hasVarKey K (overwriteFirst k v cs h) = hasVarKey K h := by
  intro h
  induction h with
  | nil => rfl
  | cons b rest ih =>
    cases b with
    | var k2 v2 r2 cs2 =>
      by_cases hk2 : k2 = k
      · subst hk2
        simp [overwriteFirst, hasVarKey_cons, isVarKey]
      · simp [overwriteFirst, hk2, hasVarKey_cons, ih]
    | comment ls => simp [overwriteFirst, hasVarKey_cons, ih]
    | empty => simp [overwriteFirst, hasVarKey_cons, ih]

/-- Overwriting never changes the key sequence. -/
theorem varKeys_overwriteFirst (k v : List Char) (cs : List (List Char)) :
    ∀ h, varKeys (overwriteFirst k v cs h) = varKeys h := by
  intro h
  induction h with
  | nil => rfl
  | cons b rest ih =>
    cases b with
    | var k2 v2 r2 cs2 =>
      by_cases hk2 : k2 = k
      · subst hk2
        simp [overwriteFirst, varKeys_cons_var, ih]
      · simp [overwriteFirst, hk2, varKeys_cons_var, ih]
    | comment ls => simp [overwriteFirst, varKeys_cons_comment, ih]
    | empty => simp [overwriteFirst, varKeys_cons_empty, ih]

theorem lastVariableBlock_cons (K : List Char) (b : Block) (rest : List Block) :
    lastVariableBlock K (b :: rest) =
      match lastVariableBlock K rest with
      | some r => some r
      | none => if isVarKey K b then some b else none := rfl

theorem lastVariableBlock_isSome (K : List Char) :
    ∀ d, (lastVariableBlock K d).isSome = hasVarKey K d := by
  intro d
  induction d with
  | nil => rfl
  | cons b rest ih =>
    rw [hasVarKey_cons, ← ih, lastVariableBlock_cons]
    cases hl : lastVariableBlock K rest with
    | some r => simp
    | none => by_cases hb : isVarKey K b <;> simp [hb]

/-- A rightmost `K`-variable lookup only ever returns a `K`-keyed
variable block. -/
theorem lastVariableBlock_shape (K : List Char) :
    ∀ d b, lastVariableBlock K d = some b → isVarKey K b = true := by
  intro d
  induction d with
  | nil => intro b hb; simp [lastVariableBlock] at hb
  | cons b0 rest ih =>
    intro b hb
    rw [lastVariableBlock_cons] at hb
    cases hl : lastVariableBlock K rest with
    | some r =>
      rw [hl] at hb
      simp only [Option.some.injEq] at hb
      exact ih _ (hb ▸ hl)
    | none =>
      rw [hl] at hb
      by_cases hb0 : isVarKey K b0
      · simp only [hb0, if_true] at hb
        simp only [Option.some.injEq] at hb
        exact hb ▸ hb0
      · simp [hb0] at hb

theorem lastVariableBlock_cons_of_has (K : List Char) (b : Block)
    (rest : List Block) (hrest : hasVarKey K rest = true) :
    lastVariableBlock K (b :: rest) = lastVariableBlock K rest := by
  rw [lastVariableBlock_cons]
  cases hl : lastVariableBlock K rest with
  | some r => rfl
  | none =>
    have := lastVariableBlock_isSome K rest
    rw [hl] at this
    simp [hrest] at this

theorem lastVariableBlock_cons_last (K : List Char) (b : Block)
    (rest : List Block) (hb : isVarKey K b = true)
    (hrest : hasVarKey K rest = false) :
    lastVariableBlock K (b :: rest) = some b := by
  rw [lastVariableBlock_cons]
  cases hl : lastVariableBlock K rest with
  | some r =>
    have := lastVariableBlock_isSome K rest
    rw [hl] at this
    simp [hrest] at this
  | none => simp [hb]

theorem lastVariableBlock_cons_skip (K : List Char) (b : Block)
    (rest : List Block) (hb : isVarKey K b = false) :
    lastVariableBlock K (b :: rest) = lastVariableBlock K rest := by
  rw [lastVariableBlock_cons]
  cases hl : lastVariableBlock K rest with
  | some r => rfl
  | none => simp [hb]

theorem lastVarValue_cons_skip (K : List Char) (b : Block) (rest : List Block)
    (hb : isVarKey K b = false) :
    lastVarValue K (b :: rest) = lastVarValue K rest := by
  unfold lastVarValue
  rw [lastVariableBlock_cons_skip _ _ _ hb]

theorem lastVarValue_cons_of_has (K : List Char) (b : Block) (rest : List Block)
    (hrest : hasVarKey K rest = true) :
    lastVarValue K (b :: rest) = lastVarValue K rest := by
  unfold lastVarValue
  rw [lastVariableBlock_cons_of_has _ _ _ hrest]

theorem lastVarValue_cons_last (K v r : List Char) (cs : List (List Char))
    (rest : List Block) (hb : isVarKey K (.var K v r cs) = true)
    (hrest : hasVarKey K rest = false) :
    lastVarValue K (.var K v r cs :: rest) = some v := by
  unfold lastVarValue
  rw [lastVariableBlock_cons_last _ _ _ hb hrest]
  rfl

theorem findVariableValue_of_block (h : List Block) (K : List Char) :
    findVariableValue h K = (findVariableBlock h K).bind blockValue := rfl

/-- Splicing a non-`K` block into a document preserves `K`-lookups. -/
theorem findVariableBlock_insertAt_neg (head : List Block) (i : Nat) (b : Block)
    (K : List Char) (hb : isVarKey K b = false) :
    findVariableBlock (insertAt head i b) K = findVariableBlock head K := by
  have h2 := findVariableBlock_middle_neg (head.take i) (head.drop i) b K hb
  rw [List.take_append_drop] at h2
  exact h2

/-- Splicing a `K`-keyed block into a `K`-free document makes it the
`K`-lookup result. -/
theorem findVariableBlock_insertAt_new (head : List Block) (i : Nat) (b : Block)
    (K : List Char) (hnone : findVariableBlock head K = none)
    (hb : isVarKey K b = true) :
    findVariableBlock (insertAt head i b) K = some b := by
  apply findVariableBlock_middle_new _ _ _ _ _ hb
  rw [List.take_append_drop]
  exact hnone

theorem findVariableBlock_append_neg (head : List Block) (b : Block)
    (K : List Char) (hb : isVarKey K b = false) :
    findVariableBlock (head ++ [b]) K = findVariableBlock head K := by
  have h2 := findVariableBlock_middle_neg head [] b K hb
  rwa [List.append_nil] at h2

theorem findVariableBlock_append_new (head : List Block) (b : Block)
    (K : List Char) (hnone : findVariableBlock head K = none)
    (hb : isVarKey K b = true) :
    findVariableBlock (head ++ [b]) K = some b := by
  apply findVariableBlock_middle_new _ _ _ _ _ hb
  rwa [List.append_nil]

theorem hasVarKey_insertAt (head : List Block) (i : Nat) (b : Block)
    (K : List Char) :
    hasVarKey K (insertAt head i b) = (isVarKey K b || hasVarKey K head) := by
  unfold insertAt
  rw [hasVarKey_append, hasVarKey_cons]
  conv_rhs => rw [← List.take_append_drop i head, hasVarKey_append]
  cases hasVarKey K (head.take i) <;> cases isVarKey K b <;>
    cases hasVarKey K (head.drop i) <;> rfl

theorem hasVarKey_not_nil {K : List Char} {h : List Block}
    (hh : hasVarKey K h = true) : h ≠ [] := by
  intro hcon
  rw [hcon, hasVarKey_nil] at hh
  cases hh

/-- The common leaf of the pass-1 value argument: one source variable
`k = v` has been folded into the base (by overwrite, splice or append),
giving `base2`; the remaining source is `rest`. -/
theorem mergePass1_value_step (base2 base : List Block) (k v r : List Char)
    (cs : List (List Char)) (rest : List Block) (K : List Char)
    (hA : k = K → findVariableValue base2 K = some v)
    (hB : k ≠ K → findVariableValue base2 K = findVariableValue base K) :
    (if hasVarKey K rest then lastVarValue K rest else findVariableValue base2 K) =
      if hasVarKey K (.var k v r cs :: rest) then
        lastVarValue K (.var k v r cs :: rest)
      else findVariableValue base K := by
  by_cases hKrest : hasVarKey K rest
  · rw [if_pos hKrest, if_pos (by rw [hasVarKey_cons, hKrest, Bool.or_true]),
      lastVarValue_cons_of_has _ _ _ hKrest]
  · have hKrest2 : hasVarKey K rest = false := by simpa using hKrest
    rw [if_neg hKrest]
    by_cases hKk : k = K
    · subst hKk
      have hvk : isVarKey k (Block.var k v r cs) = true := by simp [isVarKey]
      rw [hA rfl, if_pos (by rw [hasVarKey_cons, hvk, Bool.true_or]),
        lastVarValue_cons_last _ _ _ _ _ hvk hKrest2]
    · have hvk : isVarKey K (Block.var k v r cs) = false := by
        simp [isVarKey, hKk]
      rw [hB hKk, if_neg (by rw [hasVarKey_cons, hvk, hKrest2]; simp)]

/-- A key absent from the base has no lookup result there. -/
theorem findVariableBlock_eq_none_of_not_has {k : List Char} {base : List Block}
    (hk : hasVarKey k base = false) : findVariableBlock base k = none := by
  unfold hasVarKey at hk
  exact Option.not_isSome_iff_eq_none.mp (by simp [hk])

/-- Pass 1, value form: after the variable pass, the value found for `K`
is the value of the rightmost `K`-definition of the source when the source
defines `K`, and the base's found value otherwise. -/
theorem mergePass1_findValue (src : List Block) : ∀ base K,
    findVariableValue (mergePass1 base src) K =
      if hasVarKey K src then lastVarValue K src else findVariableValue base K := by
  induction src with
  | nil =>
    intro base K
    simp [mergePass1, hasVarKey_nil]
  | cons b rest ih =>
    intro base K
    cases b with
    | comment ls =>
      have hskip : isVarKey K (Block.comment ls) = false := rfl
      rw [show mergePass1 base (.comment ls :: rest) = mergePass1 base rest from rfl,
        ih, hasVarKey_cons, hskip, Bool.false_or]
      by_cases hKrest : hasVarKey K rest
      · rw [if_pos hKrest, if_pos hKrest, lastVarValue_cons_skip _ _ _ hskip]
      · rw [if_neg hKrest, if_neg hKrest]
    | empty =>
      have hskip : isVarKey K (Block.empty) = false := rfl
      rw [show mergePass1 base (.empty :: rest) = mergePass1 base rest from rfl,
        ih, hasVarKey_cons, hskip, Bool.false_or]
      by_cases hKrest : hasVarKey K rest
      · rw [if_pos hKrest, if_pos hKrest, lastVarValue_cons_skip _ _ _ hskip]
      · rw [if_neg hKrest, if_neg hKrest]
    | var k v r cs =>
      have hbk : isVarKey k (Block.var k v r cs) = true := by simp [isVarKey]
      by_cases hk : hasVarKey k base
      · have hstep : mergePass1 base (.var k v r cs :: rest) =
            mergePass1 (overwriteFirst k v cs base) rest := by
          simp [mergePass1, hk]
        rw [hstep, ih]
        apply mergePass1_value_step
        · intro hKk
          subst hKk
          rw [findVariableValue_of_block,
            findVariableBlock_overwriteFirst_self _ _ _ _ hk]
          rfl
        · intro hKk
          rw [findVariableValue_of_block,
            findVariableBlock_overwriteFirst_other _ _ _ _ (fun hc => hKk hc.symm),
            ← findVariableValue_of_block]
      · have hk2 : hasVarKey k base = false := by simpa using hk
        have hnone : findVariableBlock base k = none :=
          findVariableBlock_eq_none_of_not_has hk2
        cases hfi : findIntersectionIdx rest base with
        | some i =>
          have hstep : mergePass1 base (.var k v r cs :: rest) =
              mergePass1 (insertAt base i (.var k v r cs)) rest := by
            simp [mergePass1, hk2, hfi]
          rw [hstep, ih]
          apply mergePass1_value_step
          · intro hKk
            subst hKk
            rw [findVariableValue_of_block,
              findVariableBlock_insertAt_new _ _ _ _ hnone hbk]
            rfl
          · intro hKk
            rw [findVariableValue_of_block,
              findVariableBlock_insertAt_neg _ _ _ _ (by simp [isVarKey, hKk]),
              ← findVariableValue_of_block]
        | none =>
          have hstep : mergePass1 base (.var k v r cs :: rest) =
              mergePass1 (base ++ [.var k v r cs]) rest := by
            simp [mergePass1, hk2, hfi]
          rw [hstep, ih]
          apply mergePass1_value_step
          · intro hKk
            subst hKk
            rw [findVariableValue_of_block,
              findVariableBlock_append_new _ _ _ hnone hbk]
            rfl
          · intro hKk
            rw [findVariableValue_of_block,
              findVariableBlock_append_neg _ _ _ (by simp [isVarKey, hKk]),
              ← findVariableValue_of_block]

/-- The common leaf of the pass-1 block argument. -/
theorem mergePass1_block_step (base2 base : List Block) (k v r : List Char)
    (cs : List (List Char)) (rest : List Block) (K : List Char)
    (hA : k = K → findVariableBlock base2 K =
        some (.var K v (K ++ '=' :: quoteValue v) cs))
    (hB : k ≠ K → findVariableBlock base2 K = findVariableBlock base K) :
    (match lastVariableBlock K rest with
     | some bb => some (overwrittenForm K bb)
     | none => findVariableBlock base2 K) =
      (match lastVariableBlock K (.var k v r cs :: rest) with
       | some bb => some (overwrittenForm K bb)
       | none => findVariableBlock base K) := by
  cases hl : lastVariableBlock K rest with
  | some bb =>
    have hr : hasVarKey K rest = true := by
      rw [← lastVariableBlock_isSome, hl]; rfl
    rw [lastVariableBlock_cons_of_has _ _ _ hr, hl]
  | none =>
    have hr : hasVarKey K rest = false := by
      rw [← lastVariableBlock_isSome, hl]; rfl
    by_cases hKk : k = K
    · subst hKk
      have hvk : isVarKey k (Block.var k v r cs) = true := by simp [isVarKey]
      rw [lastVariableBlock_cons_last _ _ _ hvk hr, hA rfl]
      rfl
    · have hvk : isVarKey K (Block.var k v r cs) = false := by
        simp [isVarKey, hKk]
      rw [lastVariableBlock_cons_skip _ _ _ hvk, hl, hB hKk]

/-- Pass 1, block form, for a key already present in the base: the block
found for `K` afterwards is the base's block overwritten with the
rightmost `K`-definition of the source (value and comments copied, raw
re-derived), or the untouched base block when the source does not
define `K`. -/
theorem mergePass1_findBlock (src : List Block) : ∀ base K,
    hasVarKey K base = true →
    findVariableBlock (mergePass1 base src) K =
      match lastVariableBlock K src with
      | some bb => some (overwrittenForm K bb)
      | none => findVariableBlock base K := by
  induction src with
  | nil =>
    intro base K _
    simp [mergePass1, lastVariableBlock]
  | cons b rest ih =>
    intro base K hbase
    cases b with
    | comment ls =>
      rw [show mergePass1 base (.comment ls :: rest) = mergePass1 base rest from rfl,
        ih base K hbase, lastVariableBlock_cons_skip K (Block.comment ls) rest rfl]
    | empty =>
      rw [show mergePass1 base (.empty :: rest) = mergePass1 base rest from rfl,
        ih base K hbase, lastVariableBlock_cons_skip K Block.empty rest rfl]
    | var k v r cs =>
      have hbk : isVarKey k (Block.var k v r cs) = true := by simp [isVarKey]
      by_cases hk : hasVarKey k base
      · have hstep : mergePass1 base (.var k v r cs :: rest) =
            mergePass1 (overwriteFirst k v cs base) rest := by
          simp [mergePass1, hk]
        rw [hstep, ih _ K (by rw [hasVarKey_overwriteFirst]; exact hbase)]
        apply mergePass1_block_step
        · intro hKk
          subst hKk
          exact findVariableBlock_overwriteFirst_self _ _ _ _ hk
        · intro hKk
          exact findVariableBlock_overwriteFirst_other _ _ _ _
            (fun hc => hKk hc.symm) base
      · have hk2 : hasVarKey k base = false := by simpa using hk
        have hKk : k ≠ K := by
          intro hc
          subst hc
          rw [hbase] at hk2
          cases hk2
        have hvkK : isVarKey K (Block.var k v r cs) = false := by
          simp [isVarKey, hKk]
        cases hfi : findIntersectionIdx rest base with
        | some i =>
          have hstep : mergePass1 base (.var k v r cs :: rest) =
              mergePass1 (insertAt base i (.var k v r cs)) rest := by
            simp [mergePass1, hk2, hfi]
          rw [hstep, ih _ K (by rw [hasVarKey_insertAt, hvkK, Bool.false_or]; exact hbase)]
          apply mergePass1_block_step
          · intro hc; exact absurd hc hKk
          · intro _
            exact findVariableBlock_insertAt_neg _ _ _ _ hvkK
        | none =>
          have hstep : mergePass1 base (.var k v r cs :: rest) =
              mergePass1 (base ++ [.var k v r cs]) rest := by
            simp [mergePass1, hk2, hfi]
          rw [hstep, ih _ K (by
            rw [hasVarKey_append, hasVarKey_cons, hvkK, hasVarKey_nil, hbase]
            rfl)]
          apply mergePass1_block_step
          · intro hc; exact absurd hc hKk
          · intro _
            exact findVariableBlock_append_neg _ _ _ hvkK

/-- Pass 2 only inserts comment blocks, so variable lookups never change. -/
theorem findVariableBlock_insertCommentBlock (head : List Block)
    (ls : List (List Char)) (rest : List Block) (K : List Char) :
    findVariableBlock (insertCommentBlock head ls rest) K =
      findVariableBlock head K := by
  have hc : isVarKey K (Block.comment ls) = false := rfl
  unfold insertCommentBlock
  cases firstVarKey rest with
  | none =>
    by_cases hb : hasCommentBlockBefore head 0 (.comment ls) <;>
      simp [hb, findVariableBlock_append_neg _ _ _ hc]
  | some k =>
    cases hfi : findVarIdx k head with
    | none =>
      simp only [hfi]
      by_cases hb : hasCommentBlockBefore head 0 (.comment ls) <;>
        simp [hb, findVariableBlock_append_neg _ _ _ hc]
    | some i =>
      simp only [hfi]
      by_cases hb : hasCommentBlockBefore head i (.comment ls) <;>
        simp [hb, findVariableBlock_insertAt_neg _ _ _ _ hc]

theorem findVariableBlock_mergePass2 (src : List Block) : ∀ head K,
    findVariableBlock (mergePass2 head src) K = findVariableBlock head K := by
  induction src with
  | nil => intro head K; rfl
  | cons b rest ih =>
    intro head K
    cases b with
    | comment ls =>
      rw [show mergePass2 head (.comment ls :: rest) =
          mergePass2 (insertCommentBlock head ls rest) rest from rfl, ih,
        findVariableBlock_insertCommentBlock]
    | empty => exact ih head K
    | var k v r cs => exact ih head K

/-- `mergeTwo`, value form. -/
theorem mergeTwo_findValue (base src : List Block) (K : List Char) :
    findVariableValue (mergeTwo base src) K =
      if hasVarKey K src then lastVarValue K src else findVariableValue base K := by
  unfold mergeTwo
  rw [findVariableValue_of_block, findVariableBlock_mergePass2,
    ← findVariableValue_of_block, mergePass1_findValue]

/-- `mergeTwo`, block form for keys present on both sides. -/
theorem mergeTwo_findBlock (base src : List Block) (K : List Char)
    (hbase : hasVarKey K base = true) :
    findVariableBlock (mergeTwo base src) K =
      match lastVariableBlock K src with
      | some bb => some (overwrittenForm K bb)
      | none => findVariableBlock base K := by
  unfold mergeTwo
  rw [findVariableBlock_mergePass2, mergePass1_findBlock _ _ _ hbase]

theorem mergeSources_pair (a b : List Block) (ha : a ≠ []) (hb : b ≠ []) :
    mergeSources [a, b] = mergeTwo a b := by
  unfold mergeSources
  have ha2 : a.isEmpty = false := by simpa [List.isEmpty_iff] using ha
  have hb2 : b.isEmpty = false := by simpa [List.isEmpty_iff] using hb
  simp [List.filter, ha2, hb2]

theorem mergeSources_triple (a b c : List Block)
    (ha : a ≠ []) (hb : b ≠ []) (hc : c ≠ []) :
    mergeSources [a, b, c] = mergeTwo (mergeTwo a b) c := by
  unfold mergeSources
  have ha2 : a.isEmpty = false := by simpa [List.isEmpty_iff] using ha
  have hb2 : b.isEmpty = false := by simpa [List.isEmpty_iff] using hb
  have hc2 : c.isEmpty = false := by simpa [List.isEmpty_iff] using hc
  simp [List.filter, ha2, hb2, hc2]

/-! ## Claim C2: override precedence (later sources win) -/

/-- C2: when `a` and `b` both define key `K`, `findVariable` on
`mergeSources(a, b)` yields the value of `b`'s rightmost definition of
`K` (later wins); over three documents the rightmost definition wins
regardless of duplicates in earlier documents; and on override the
found block is exactly `b`'s rightmost `K`-block in overwritten form:
its value and its comments are that source block's value and comments
(the base block's comments are replaced), and its raw form is
regenerated as the key and the (possibly quoted) new value. -/
theorem c2_override_precedence :
    (∀ a b K, hasVarKey K a = true → hasVarKey K b = true →
        findVariableValue (mergeSources [a, b]) K = lastVarValue K b) ∧
    (∀ a b c K, a ≠ [] → b ≠ [] → hasVarKey K c = true →
        findVariableValue (mergeSources [a, b, c]) K = lastVarValue K c) ∧
    (∀ a b K, hasVarKey K a = true → hasVarKey K b = true →
        findVariableBlock (mergeSources [a, b]) K =
          (lastVariableBlock K b).map (overwrittenForm K)) := by
  refine ⟨?_, ?_, ?_⟩
  · intro a b K ha hb
    rw [mergeSources_pair a b (hasVarKey_not_nil ha) (hasVarKey_not_nil hb),
      mergeTwo_findValue, if_pos hb]
  · intro a b c K ha hb hc
    rw [mergeSources_triple a b c ha hb (hasVarKey_not_nil hc),
      mergeTwo_findValue, if_pos hc]
  · intro a b K ha hb
    rw [mergeSources_pair a b (hasVarKey_not_nil ha) (hasVarKey_not_nil hb)]
    have hfb := mergeTwo_findBlock a b K ha
    cases hl : lastVariableBlock K b with
    | none =>
      have hs := lastVariableBlock_isSome K b
      rw [hl, hb] at hs
      simp at hs
    | some bb =>
      rw [hl] at hfb
      rw [hfb]
      rfl

/-- Witness for C2 at concrete documents: pairwise and three-source value
precedence, and the block-level override (the merged `K`-block carries the
source block's value and comments with a re-derived raw text). -/
theorem c2_override_precedence_witness :
    findVariableValue
        (mergeSources [parseEnvFile (str "K=1"), parseEnvFile (str "K=2")])
        (str "K") =
      lastVarValue (str "K") (parseEnvFile (str "K=2")) ∧
    findVariableValue
        (mergeSources [parseEnvFile (str "K=1"), parseEnvFile (str "A=0\nK=7"),
          parseEnvFile (str "K=3\nB=1\nK=4")]) (str "K") =
      lastVarValue (str "K") (parseEnvFile (str "K=3\nB=1\nK=4")) ∧
    findVariableBlock
        (mergeSources [parseEnvFile (str "# old\nK=1"),
          parseEnvFile (str "# new\nK=2")]) (str "K") =
      (lastVariableBlock (str "K") (parseEnvFile (str "# new\nK=2"))).map
        (overwrittenForm (str "K")) :=
  ⟨c2_override_precedence.1 _ _ _ (by decide) (by decide),
   c2_override_precedence.2.1 _ _ _ _ (by decide) (by decide) (by decide),
   c2_override_precedence.2.2 _ _ _ (by decide) (by decide)⟩

/-! ## Claim C4: new-key insertion -/

theorem findVarIdx_cons (K : List Char) (b : Block) (rest : List Block) :
    findVarIdx K (b :: rest) =
      if isVarKey K b then some 0 else (findVarIdx K rest).map (· + 1) := by
  unfold findVarIdx
  rw [List.findIdx?_cons, List.findIdx?_succ]

/-- `findVarIdx` finds the position of the first variable block carrying
the key: the block there has the key, and no earlier block does. -/
theorem findVarIdx_spec (K : List Char) :
    ∀ (head : List Block) i, findVarIdx K head = some i →
      ∃ b, head[i]? = some b ∧ isVarKey K b = true ∧
        ∀ j bj, j < i → head[j]? = some bj → isVarKey K bj = false := by
  intro head
  induction head with
  | nil => intro i hi; simp [findVarIdx] at hi
  | cons b rest ih =>
    intro i hi
    rw [findVarIdx_cons] at hi
    by_cases hb : isVarKey K b
    · rw [if_pos hb] at hi
      obtain rfl : (0 : Nat) = i := by simpa using hi
      exact ⟨b, by simp, hb, fun j bj hj _ => absurd hj (Nat.not_lt_zero j)⟩
    · rw [if_neg hb] at hi
      cases hfr : findVarIdx K rest with
      | none => rw [hfr] at hi; simp at hi
      | some i0 =>
        rw [hfr] at hi
        simp only [Option.map_some', Option.some.injEq] at hi
        obtain ⟨b0, hb0, hkb0, hprev⟩ := ih i0 hfr
        subst hi
        refine ⟨b0, by simpa using hb0, hkb0, ?_⟩
        intro j bj hj hbj
        cases j with
        | zero =>
          have hbjb : b = bj := by simpa using hbj
          rw [← hbjb]
          simpa using hb
        | succ j0 =>
          exact hprev j0 bj (by omega) (by simpa using hbj)

theorem findVarIdx_eq_none (K : List Char) (h : List Block) :
    findVarIdx K h = none ↔ hasVarKey K h = false := by
  unfold findVarIdx hasVarKey findVariableBlock
  rw [List.findIdx?_eq_none_iff]
  constructor
  · intro hall
    rw [List.find?_eq_none.mpr]
    · rfl
    · intro x hx
      rw [hall x hx]
      simp
  · intro hnone x hx
    cases hfind : List.find? (isVarKey K) h with
    | some bb => rw [hfind] at hnone; cases hnone
    | none =>
      have := List.find?_eq_none.mp hfind x hx
      simpa using this

/-- With no later shared key, the intersection scan finds nothing. -/
theorem findIntersectionIdx_none_of_disjoint :
    ∀ (rest head : List Block),
      (∀ k ∈ varKeys rest, hasVarKey k head = false) →
      findIntersectionIdx rest head = none := by
  intro rest
  induction rest with
  | nil => intro head _; rfl
  | cons b tail ih =>
    intro head hdis
    cases b with
    | var k v r cs =>
      have hk : hasVarKey k head = false :=
        hdis k (by rw [varKeys_cons_var]; exact List.mem_cons_self _ _)
      have : findVarIdx k head = none := (findVarIdx_eq_none k head).mpr hk
      rw [show findIntersectionIdx (.var k v r cs :: tail) head =
          (match findVarIdx k head with
           | some i => some i
           | none => findIntersectionIdx tail head) from rfl, this]
      exact ih head fun k2 hk2 => hdis k2 (by rw [varKeys_cons_var]; right; exact hk2)
    | comment ls =>
      rw [show findIntersectionIdx (.comment ls :: tail) head =
          findIntersectionIdx tail head from rfl]
      exact ih head fun k2 hk2 => hdis k2 (by rwa [varKeys_cons_comment])
    | empty =>
      rw [show findIntersectionIdx (.empty :: tail) head =
          findIntersectionIdx tail head from rfl]
      exact ih head fun k2 hk2 => hdis k2 (by rwa [varKeys_cons_empty])

theorem varKeys_insertAt (head : List Block) (i : Nat) (b : Block) :
    varKeys (insertAt head i b) =
      varKeys (head.take i) ++ varKeys [b] ++ varKeys (head.drop i) := by
  unfold insertAt
  rw [varKeys_append, show (b :: head.drop i) = [b] ++ head.drop i from rfl,
    varKeys_append, List.append_assoc]

/-- Pass 1 only adds keys of the source: any key filter rejecting all the
source's keys sees the base's key sequence unchanged. -/
theorem varKeys_mergePass1_filter (src : List Block) :
    ∀ base (p : List Char → Bool),
      (∀ k ∈ varKeys src, p k = false) →
      (varKeys (mergePass1 base src)).filter p = (varKeys base).filter p := by
  induction src with
  | nil => intro base p _; rfl
  | cons b rest ih =>
    intro base p hdis
    cases b with
    | comment ls =>
      rw [show mergePass1 base (.comment ls :: rest) = mergePass1 base rest from rfl]
      exact ih base p fun k2 hk2 => hdis k2 (by rwa [varKeys_cons_comment])
    | empty =>
      rw [show mergePass1 base (.empty :: rest) = mergePass1 base rest from rfl]
      exact ih base p fun k2 hk2 => hdis k2 (by rwa [varKeys_cons_empty])
    | var k v r cs =>
      have hpk : p k = false :=
        hdis k (by rw [varKeys_cons_var]; exact List.mem_cons_self _ _)
      have hdisrest : ∀ k2 ∈ varKeys rest, p k2 = false := fun k2 hk2 =>
        hdis k2 (by rw [varKeys_cons_var]; right; exact hk2)
      by_cases hk : hasVarKey k base
      · have hstep : mergePass1 base (.var k v r cs :: rest) =
            mergePass1 (overwriteFirst k v cs base) rest := by
          simp [mergePass1, hk]
        rw [hstep, ih _ p hdisrest, varKeys_overwriteFirst]
      · have hk2 : hasVarKey k base = false := by simpa using hk
        cases hfi : findIntersectionIdx rest base with
        | some i =>
          have hstep : mergePass1 base (.var k v r cs :: rest) =
              mergePass1 (insertAt base i (.var k v r cs)) rest := by
            simp [mergePass1, hk2, hfi]
          rw [hstep, ih _ p hdisrest, varKeys_insertAt]
          conv_rhs => rw [← List.take_append_drop i base, varKeys_append]
          rw [List.filter_append, List.filter_append, List.filter_append]
          simp [varKeys_cons_var, varKeys_nil, List.filter_cons, hpk]
        | none =>
          have hstep : mergePass1 base (.var k v r cs :: rest) =
              mergePass1 (base ++ [.var k v r cs]) rest := by
            simp [mergePass1, hk2, hfi]
          rw [hstep, ih _ p hdisrest, varKeys_append]
          rw [List.filter_append]
          simp [varKeys_cons_var, varKeys_nil, List.filter_cons, hpk]

theorem varKeys_insertCommentBlock (head : List Block) (ls : List (List Char))
    (rest : List Block) :
    varKeys (insertCommentBlock head ls rest) = varKeys head := by
  unfold insertCommentBlock
  cases firstVarKey rest with
  | none =>
    by_cases hb : hasCommentBlockBefore head 0 (.comment ls) <;>
      simp [hb, varKeys_append, varKeys_cons_comment, varKeys_nil]
  | some k =>
    cases hfi : findVarIdx k head with
    | none =>
      simp only [hfi]
      by_cases hb : hasCommentBlockBefore head 0 (.comment ls) <;>
        simp [hb, varKeys_append, varKeys_cons_comment, varKeys_nil]
    | some i =>
      simp only [hfi]
      by_cases hb : hasCommentBlockBefore head i (.comment ls)
      · simp [hb]
      · simp only [hb, Bool.false_eq_true, if_false]
        rw [varKeys_insertAt]
        conv_rhs => rw [← List.take_append_drop i head, varKeys_append]
        simp [varKeys_cons_comment, varKeys_nil]

theorem varKeys_mergePass2 (src : List Block) : ∀ head,
    varKeys (mergePass2 head src) = varKeys head := by
  induction src with
  | nil => intro head; rfl
  | cons b rest ih =>
    intro head
    cases b with
    | comment ls =>
      rw [show mergePass2 head (.comment ls :: rest) =
          mergePass2 (insertCommentBlock head ls rest) rest from rfl, ih,
        varKeys_insertCommentBlock]
    | empty => exact ih head
    | var k v r cs => exact ih head

/-- When the source's keys are all new and pairwise distinct, pass 1 is
literally "append the source's variable blocks, in order, unchanged". -/
theorem mergePass1_disjoint (src : List Block) :
    ∀ base, (∀ k ∈ varKeys src, hasVarKey k base = false) →
      (varKeys src).Nodup →
      mergePass1 base src = base ++ src.filter isVariableBlock := by
  induction src with
  | nil => intro base _ _; simp [mergePass1]
  | cons b rest ih =>
    intro base hdis hnd
    cases b with
    | comment ls =>
      rw [show mergePass1 base (.comment ls :: rest) = mergePass1 base rest from rfl,
        ih base (fun k2 hk2 => hdis k2 (by rwa [varKeys_cons_comment]))
          (by rwa [varKeys_cons_comment] at hnd)]
      rfl
    | empty =>
      rw [show mergePass1 base (.empty :: rest) = mergePass1 base rest from rfl,
        ih base (fun k2 hk2 => hdis k2 (by rwa [varKeys_cons_empty]))
          (by rwa [varKeys_cons_empty] at hnd)]
      rfl
    | var k v r cs =>
      have hk : hasVarKey k base = false :=
        hdis k (by rw [varKeys_cons_var]; exact List.mem_cons_self _ _)
      rw [varKeys_cons_var] at hnd
      have hknotin : k ∉ varKeys rest := by
        have := List.nodup_cons.mp hnd
        exact this.1
      have hndrest : (varKeys rest).Nodup := (List.nodup_cons.mp hnd).2
      have hdisrest : ∀ k2 ∈ varKeys rest, hasVarKey k2 (base ++ [.var k v r cs]) = false := by
        intro k2 hk2
        rw [hasVarKey_append, hasVarKey_cons, hasVarKey_nil]
        have h1 : hasVarKey k2 base = false :=
          hdis k2 (by rw [varKeys_cons_var]; right; exact hk2)
        have h2 : isVarKey k2 (Block.var k v r cs) = false := by
          have : ¬k = k2 := fun hc => hknotin (hc ▸ hk2)
          simp [isVarKey, this]
        rw [h1, h2]
        rfl
      have hfi : findIntersectionIdx rest base = none :=
        findIntersectionIdx_none_of_disjoint rest base fun k2 hk2 =>
          hdis k2 (by rw [varKeys_cons_var]; right; exact hk2)
      have hstep : mergePass1 base (.var k v r cs :: rest) =
          mergePass1 (base ++ [.var k v r cs]) rest := by
        simp [mergePass1, hk, hfi]
      rw [hstep, ih _ hdisrest hndrest]
      simp [isVariableBlock, List.filter_cons]

theorem varKeys_filter_isVariableBlock (d : List Block) :
    varKeys (d.filter isVariableBlock) = varKeys d := by
  induction d with
  | nil => rfl
  | cons b rest ih =>
    cases b with
    | var k v r cs => simp [List.filter_cons, isVariableBlock, varKeys_cons_var, ih]
    | comment ls => simp [List.filter_cons, isVariableBlock, varKeys_cons_comment, ih]
    | empty => simp [List.filter_cons, isVariableBlock, varKeys_cons_empty, ih]

/-- C4, amended: a source variable whose key is absent from the base is
spliced immediately before the base block at the intersection index — the
position of the first base variable keyed like the first later source
variable whose key exists in the base — and appended at the base's tail
when no later source variable shares a key with the base; the intersection
index always points at the first base variable with that key; variables
present only in the base keep their relative order; and when the source
shares no key with the base, the merged key sequence is the base's keys
followed by the source's keys in source order.  (In general, source-only
variables may be reordered when the shared keys interleave differently —
see the counterexample.) -/
theorem c4_new_key_insertion :
    (∀ head k v r cs rest i, hasVarKey k head = false →
        findIntersectionIdx rest head = some i →
        mergePass1 head (.var k v r cs :: rest) =
          mergePass1 (insertAt head i (.var k v r cs)) rest) ∧
    (∀ head k v r cs rest, hasVarKey k head = false →
        (∀ k2 ∈ varKeys rest, hasVarKey k2 head = false) →
        mergePass1 head (.var k v r cs :: rest) =
          mergePass1 (head ++ [.var k v r cs]) rest) ∧
    (∀ K head i, findVarIdx K head = some i →
        ∃ b, head[i]? = some b ∧ isVarKey K b = true ∧
          ∀ j bj, j < i → head[j]? = some bj → isVarKey K bj = false) ∧
    (∀ a b (p : List Char → Bool), (∀ k ∈ varKeys b, p k = false) →
        (varKeys (mergeTwo a b)).filter p = (varKeys a).filter p) ∧
    (∀ a b, (∀ k ∈ varKeys b, hasVarKey k a = false) → (varKeys b).Nodup →
        varKeys (mergeTwo a b) = varKeys a ++ varKeys b) := by
  refine ⟨?_, ?_, findVarIdx_spec, ?_, ?_⟩
  · intro head k v r cs rest i hk hfi
    simp [mergePass1, hk, hfi]
  · intro head k v r cs rest hk hdis
    simp [mergePass1, hk, findIntersectionIdx_none_of_disjoint rest head hdis]
  · intro a b p hdis
    unfold mergeTwo
    rw [varKeys_mergePass2, varKeys_mergePass1_filter _ _ _ hdis]
  · intro a b hdis hnd
    unfold mergeTwo
    rw [varKeys_mergePass2, mergePass1_disjoint _ _ hdis hnd, varKeys_append,
      varKeys_filter_isVariableBlock]

/-- Witness for C4 at concrete documents. -/
theorem c4_new_key_insertion_witness :
    mergePass1 (parseEnvFile (str "X=1"))
        (.var (str "N") (str "9") (str "N=9") [] :: parseEnvFile (str "X=2")) =
      mergePass1 (insertAt (parseEnvFile (str "X=1")) 0
        (.var (str "N") (str "9") (str "N=9") [])) (parseEnvFile (str "X=2")) ∧
    mergePass1 (parseEnvFile (str "X=1"))
        (.var (str "N") (str "9") (str "N=9") [] :: parseEnvFile (str "M=3")) =
      mergePass1 (parseEnvFile (str "X=1") ++ [.var (str "N") (str "9") (str "N=9") []])
        (parseEnvFile (str "M=3")) ∧
    (varKeys (mergeTwo (parseEnvFile (str "A=1\nB=2")) (parseEnvFile (str "B=9")))).filter
        (fun k => decide (k = str "A")) =
      (varKeys (parseEnvFile (str "A=1\nB=2"))).filter (fun k => decide (k = str "A")) ∧
    varKeys (mergeTwo (parseEnvFile (str "A=1")) (parseEnvFile (str "B=2\nC=3"))) =
      varKeys (parseEnvFile (str "A=1")) ++ varKeys (parseEnvFile (str "B=2\nC=3")) ∧
    (∃ b, (parseEnvFile (str "A=1\nX=2"))[1]? = some b ∧
        isVarKey (str "X") b = true ∧
      ∀ j bj, j < 1 → (parseEnvFile (str "A=1\nX=2"))[j]? = some bj →
        isVarKey (str "X") bj = false) :=
  ⟨c4_new_key_insertion.1 _ _ _ _ _ _ _ (by decide) (by decide),
   c4_new_key_insertion.2.1 _ _ _ _ _ _ (by decide) (by decide),
   c4_new_key_insertion.2.2.2.1 _ _ _ (by decide),
   c4_new_key_insertion.2.2.2.2 _ _ (by decide) (by decide),
   c4_new_key_insertion.2.2.1 _ _ 1 (by decide)⟩

/-! ## Character-class facts -/

theorem uint32_le_toNat {u w : UInt32} : u ≤ w ↔ u.toNat ≤ w.toNat := Iff.rfl

theorem isIdentStart_toNat {c : Char} (h : isIdentStart c = true) :
    (65 ≤ c.val.toNat ∧ c.val.toNat ≤ 90) ∨
      (97 ≤ c.val.toNat ∧ c.val.toNat ≤ 122) ∨ c.val.toNat = 95 := by
  unfold isIdentStart at h
  simp only [Bool.or_eq_true, Bool.and_eq_true, decide_eq_true_eq, Char.le_def] at h
  rcases h with (⟨h1, h2⟩ | ⟨h1, h2⟩) | h1
  · exact Or.inl ⟨uint32_le_toNat.mp h1, uint32_le_toNat.mp h2⟩
  · exact Or.inr (Or.inl ⟨uint32_le_toNat.mp h1, uint32_le_toNat.mp h2⟩)
  · rw [h1]
    exact Or.inr (Or.inr rfl)

theorem isIdentChar_toNat {c : Char} (h : isIdentChar c = true) :
    (48 ≤ c.val.toNat ∧ c.val.toNat ≤ 57) ∨ (65 ≤ c.val.toNat ∧ c.val.toNat ≤ 90) ∨
      (97 ≤ c.val.toNat ∧ c.val.toNat ≤ 122) ∨ c.val.toNat = 95 := by
  unfold isIdentChar at h
  simp only [Bool.or_eq_true, Bool.and_eq_true, decide_eq_true_eq, Char.le_def] at h
  rcases h with hs | ⟨h1, h2⟩
  · rcases isIdentStart_toNat hs with h | h | h
    · exact Or.inr (Or.inl h)
    · exact Or.inr (Or.inr (Or.inl h))
    · exact Or.inr (Or.inr (Or.inr h))
  · exact Or.inl ⟨uint32_le_toNat.mp h1, uint32_le_toNat.mp h2⟩

theorem identChar_toNat_ne {c : Char} (h : isIdentChar c = true) {m : Nat}
    (hm : ¬((48 ≤ m ∧ m ≤ 57) ∨ (65 ≤ m ∧ m ≤ 90) ∨
      (97 ≤ m ∧ m ≤ 122) ∨ m = 95)) :
    c.val.toNat ≠ m := fun hc => hm (hc ▸ isIdentChar_toNat h)

theorem char_ne_of_toNat_ne {c d : Char} (h : c.val.toNat ≠ d.val.toNat) :
    c ≠ d := fun hcon => h (by rw [hcon])

/-- An identifier character is never JavaScript whitespace. -/
theorem identChar_not_ws {c : Char} (h : isIdentChar c = true) :
    isWsChar c = false := by
  have hv := isIdentChar_toNat h
  have keyN : ∀ (u : UInt32) (m : Nat), u.toNat = m → c.val.toNat ≠ m →
      decide (c.val = u) = false := by
    intro u m hm hne
    apply decide_eq_false
    intro hcon
    exact hne (hm ▸ congrArg UInt32.toNat hcon)
  have g9 := keyN 9 9 rfl (by omega)
  have g10 := keyN 10 10 rfl (by omega)
  have g11 := keyN 11 11 rfl (by omega)
  have g12 := keyN 12 12 rfl (by omega)
  have g13 := keyN 13 13 rfl (by omega)
  have g32 := keyN 32 32 rfl (by omega)
  have g160 := keyN 160 160 rfl (by omega)
  have g5760 := keyN 5760 5760 rfl (by omega)
  have g8232 := keyN 8232 8232 rfl (by omega)
  have g8233 := keyN 8233 8233 rfl (by omega)
  have g8239 := keyN 8239 8239 rfl (by omega)
  have g8287 := keyN 8287 8287 rfl (by omega)
  have g12288 := keyN 12288 12288 rfl (by omega)
  have g65279 := keyN 65279 65279 rfl (by omega)
  have gle : decide (8192 ≤ c.val) = false := by
    apply decide_eq_false
    intro hcon
    have h2 := uint32_le_toNat.mp hcon
    rw [show ((8192 : UInt32)).toNat = 8192 from rfl] at h2
    omega
  unfold isWsChar
  rw [g9, g10, g11, g12, g13, g32, g160, g5760, g8232, g8233, g8239, g8287,
    g12288, g65279, gle]
  rfl

theorem isIdentStart_isIdentChar {c : Char} (h : isIdentStart c = true) :
    isIdentChar c = true := by
  unfold isIdentChar
  rw [h]
  rfl

/-- The trimmed form of a line opening with a non-whitespace character
keeps that character at its head. -/
theorem trimChars_cons_head {c : Char} (s : List Char) (hc : isWsChar c = false) :
    (trimChars (c :: s)).head? = some c ∧ trimChars (c :: s) ≠ [] := by
  unfold trimChars
  rw [List.dropWhile_cons, hc]
  simp only [Bool.false_eq_true, if_false]
  rw [show (c :: s).reverse = s.reverse ++ [c] from by simp,
    List.dropWhile_append]
  by_cases hrev : (s.reverse.dropWhile isWsChar).isEmpty
  · rw [if_pos hrev, List.dropWhile_cons, hc]
    simp
  · rw [if_neg hrev]
    simp

/-- The shape of a successful variable-line match. -/
theorem matchVarLine_shape {line k val : List Char}
    (h : matchVarLine line = some (k, val)) :
    ∃ c rest tail, line = c :: rest ∧ isIdentStart c = true ∧
      k = c :: rest.takeWhile isIdentChar ∧
      (rest.dropWhile isIdentChar).dropWhile isWsChar = '=' :: tail ∧
      val = tail.dropWhile isWsChar ∧ val.any isLineTerm = false := by
  cases line with
  | nil => exact absurd h (by simp [matchVarLine])
  | cons c rest =>
    simp only [matchVarLine] at h
    by_cases hs : isIdentStart c
    · rw [if_pos hs] at h
      split at h
      · next e tail heq =>
        split at h
        · exact absurd h (by simp)
        · next hterm =>
          simp only [Option.some.injEq, Prod.mk.injEq] at h
          obtain ⟨hk, hval⟩ := h
          exact ⟨c, rest, tail, rfl, hs, hk.symm, heq, hval.symm, by
            rw [← hval]
            simpa using hterm⟩
      · exact absurd h (by simp)
    · rw [if_neg hs] at h
      exact absurd h (by simp)

/-- A line matching the variable grammar is classified as a variable with
the matched key, the decoded value and the original line as `raw`. -/
theorem parseLine_of_matchVar {line k val : List Char}
    (h : matchVarLine line = some (k, val)) :
    parseLine line = .var k (unquoteValue val) line := by
  obtain ⟨c, rest, tail, rfl, hs, hk, hd, hval, hterm⟩ := matchVarLine_shape h
  have hident : isIdentChar c = true := isIdentStart_isIdentChar hs
  have hcws : isWsChar c = false := identChar_not_ws hident
  obtain ⟨hhead, hne⟩ := trimChars_cons_head rest hcws
  unfold parseLine
  rw [if_neg (by simpa [List.isEmpty_iff] using hne)]
  rw [if_neg (by
    rw [hhead]
    intro hcon
    have hcc : c = '#' := by simpa using hcon
    have hneq : c ≠ '#' := char_ne_of_toNat_ne (by
      rw [show ('#').val.toNat = 35 from rfl]
      exact identChar_toNat_ne hident (by omega))
    exact hneq hcc)]
  simp only [h]

/-! ## Claim C8, amended: how `raw` is maintained -/

/-- C8, amended: at parse time the `raw` field of a variable node is the
original source line, not a re-derived form (see the counterexample);
`mergeTwo` re-derives `raw` as `key=quoteValue(value)` exactly when it
overwrites an existing base variable; and variable blocks spliced in for
new keys are copied verbatim from the source (their parse-time `raw`
included). -/
theorem c8_raw_amended :
    (∀ line k val, matchVarLine line = some (k, val) →
        parseLine line = .var k (unquoteValue val) line) ∧
    (∀ a b K, hasVarKey K a = true → hasVarKey K b = true →
        ∃ v cs, findVariableBlock (mergeTwo a b) K =
          some (.var K v (K ++ '=' :: quoteValue v) cs)) ∧
    (∀ a b, (∀ k ∈ varKeys b, hasVarKey k a = false) → (varKeys b).Nodup →
        mergePass1 a b = a ++ b.filter isVariableBlock) := by
  refine ⟨fun line k val h => parseLine_of_matchVar h, ?_,
    fun a b hdis hnd => mergePass1_disjoint b a hdis hnd⟩
  intro a b K ha hb
  have hfb := mergeTwo_findBlock a b K ha
  cases hl : lastVariableBlock K b with
  | none =>
    have hs := lastVariableBlock_isSome K b
    rw [hl, hb] at hs
    simp at hs
  | some bb =>
    rw [hl] at hfb
    have hshape := lastVariableBlock_shape K b bb hl
    cases bb with
    | var kb vb rb csb =>
      have hkb : kb = K := by simpa [isVarKey] using hshape
      subst hkb
      exact ⟨vb, csb, by rw [hfb]; rfl⟩
    | comment ls => simp [isVarKey] at hshape
    | empty => simp [isVarKey] at hshape

/-- Witness for C8 at concrete inputs. -/
theorem c8_raw_amended_witness :
    parseLine (str "B = x2") =
      .var (str "B") (unquoteValue (str "x2")) (str "B = x2") ∧
    (∃ v cs, findVariableBlock
        (mergeTwo (parseEnvFile (str "K=1")) (parseEnvFile (str "K=2"))) (str "K") =
      some (.var (str "K") v (str "K" ++ '=' :: quoteValue v) cs)) ∧
    mergePass1 (parseEnvFile (str "A=1")) (parseEnvFile (str "B=2")) =
      parseEnvFile (str "A=1") ++ (parseEnvFile (str "B=2")).filter isVariableBlock :=
  ⟨c8_raw_amended.1 (str "B = x2") (str "B") (str "x2") (by decide),
   c8_raw_amended.2.1 _ _ _ (by decide) (by decide),
   c8_raw_amended.2.2 _ _ (by decide) (by decide)⟩

/-! ## Claim C3: the quote/decode value round trip -/

theorem replace2_cons_of_ne (a b : Char) (rep : List Char) (c : Char)
    (s : List Char) (h : c ≠ a) :
    replace2 a b rep (c :: s) = c :: replace2 a b rep s := by
  cases s <;> simp [replace2, h]

theorem replace2_cons_match (a b : Char) (rep s : List Char) :
    replace2 a b rep (a :: b :: s) = rep ++ replace2 a b rep s := by
  simp [replace2]

theorem replace2_cons_nomatch (a b : Char) (rep : List Char) (d : Char)
    (s : List Char) (h : d ≠ b) :
    replace2 a b rep (a :: d :: s) = a :: replace2 a b rep (d :: s) := by
  simp [replace2, h]

theorem replace1_append (a : Char) (rep x y : List Char) :
    replace1 a rep (x ++ y) = replace1 a rep x ++ replace1 a rep y := by
  induction x with
  | nil => rfl
  | cons c x ih => simp [replace1, ih]

theorem escapeDouble_append (x y : List Char) :
    escapeDouble (x ++ y) = escapeDouble x ++ escapeDouble y := by
  simp [escapeDouble, replace1_append]

theorem escapeDouble_single {c : Char} (h : c ≠ '\\') :
    escapeDouble [c] = encChar c := by
  by_cases h1 : c = '"'
  · subst h1; decide
  · by_cases h2 : c = '\n'
    · subst h2; decide
    · by_cases h3 : c = '\r'
      · subst h3; decide
      · by_cases h4 : c = '\t'
        · subst h4; decide
        · simp [escapeDouble, replace1, encChar, h, h1, h2, h3, h4]

/-- A non-backslash character passes unchanged through the whole
unescape chain. -/
theorem unescapeDouble_cons_of_ne {c : Char} (h : c ≠ '\\') (X : List Char) :
    unescapeDouble (c :: X) = c :: unescapeDouble X := by
  unfold unescapeDouble
  rw [replace2_cons_of_ne '\\' 'n' ['\n'] c X h,
    replace2_cons_of_ne '\\' 'r' ['\r'] c _ h,
    replace2_cons_of_ne '\\' 't' ['\t'] c _ h,
    replace2_cons_of_ne '\\' '\\' ['\\'] c _ h,
    replace2_cons_of_ne '\\' '"' ['"'] c _ h]

theorem unescapeDouble_esc_quote (X : List Char) :
    unescapeDouble ('\\' :: '"' :: X) = '"' :: unescapeDouble X := by
  unfold unescapeDouble
  rw [replace2_cons_nomatch '\\' 'n' ['\n'] '"' X (by decide),
    replace2_cons_of_ne '\\' 'n' ['\n'] '"' X (by decide),
    replace2_cons_nomatch '\\' 'r' ['\r'] '"' _ (by decide),
    replace2_cons_of_ne '\\' 'r' ['\r'] '"' _ (by decide),
    replace2_cons_nomatch '\\' 't' ['\t'] '"' _ (by decide),
    replace2_cons_of_ne '\\' 't' ['\t'] '"' _ (by decide),
    replace2_cons_nomatch '\\' '\\' ['\\'] '"' _ (by decide),
    replace2_cons_of_ne '\\' '\\' ['\\'] '"' _ (by decide),
    replace2_cons_match '\\' '"' ['"'] _]
  rfl

theorem unescapeDouble_esc_n (X : List Char) :
    unescapeDouble ('\\' :: 'n' :: X) = '\n' :: unescapeDouble X := by
  unfold unescapeDouble
  rw [replace2_cons_match '\\' 'n' ['\n'] X]
  rw [show (['\n'] ++ replace2 '\\' 'n' ['\n'] X) =
      '\n' :: replace2 '\\' 'n' ['\n'] X from rfl]
  rw [replace2_cons_of_ne '\\' 'r' ['\r'] '\n' _ (by decide),
    replace2_cons_of_ne '\\' 't' ['\t'] '\n' _ (by decide),
    replace2_cons_of_ne '\\' '\\' ['\\'] '\n' _ (by decide),
    replace2_cons_of_ne '\\' '"' ['"'] '\n' _ (by decide)]

theorem unescapeDouble_esc_r (X : List Char) :
    unescapeDouble ('\\' :: 'r' :: X) = '\r' :: unescapeDouble X := by
  unfold unescapeDouble
  rw [replace2_cons_nomatch '\\' 'n' ['\n'] 'r' X (by decide),
    replace2_cons_of_ne '\\' 'n' ['\n'] 'r' X (by decide),
    replace2_cons_match '\\' 'r' ['\r'] _]
  rw [show (['\r'] ++ replace2 '\\' 'r' ['\r'] (replace2 '\\' 'n' ['\n'] X)) =
      '\r' :: replace2 '\\' 'r' ['\r'] (replace2 '\\' 'n' ['\n'] X) from rfl]
  rw [replace2_cons_of_ne '\\' 't' ['\t'] '\r' _ (by decide),
    replace2_cons_of_ne '\\' '\\' ['\\'] '\r' _ (by decide),
    replace2_cons_of_ne '\\' '"' ['"'] '\r' _ (by decide)]

theorem unescapeDouble_esc_t (X : List Char) :
    unescapeDouble ('\\' :: 't' :: X) = '\t' :: unescapeDouble X := by
  unfold unescapeDouble
  rw [replace2_cons_nomatch '\\' 'n' ['\n'] 't' X (by decide),
    replace2_cons_of_ne '\\' 'n' ['\n'] 't' X (by decide),
    replace2_cons_nomatch '\\' 'r' ['\r'] 't' _ (by decide),
    replace2_cons_of_ne '\\' 'r' ['\r'] 't' _ (by decide),
    replace2_cons_match '\\' 't' ['\t'] _]
  rw [show (['\t'] ++ replace2 '\\' 't' ['\t'] (replace2 '\\' 'r' ['\r']
      (replace2 '\\' 'n' ['\n'] X))) = '\t' :: replace2 '\\' 't' ['\t']
      (replace2 '\\' 'r' ['\r'] (replace2 '\\' 'n' ['\n'] X)) from rfl]
  rw [replace2_cons_of_ne '\\' '\\' ['\\'] '\t' _ (by decide),
    replace2_cons_of_ne '\\' '"' ['"'] '\t' _ (by decide)]

/-- Decoding an encoded character prefix recovers the character. -/
theorem unescapeDouble_enc {c : Char} (h : c ≠ '\\') (X : List Char) :
    unescapeDouble (encChar c ++ X) = c :: unescapeDouble X := by
  by_cases h1 : c = '"'
  · subst h1
    rw [show encChar '"' = ['\\', '"'] from rfl]
    exact unescapeDouble_esc_quote X
  · by_cases h2 : c = '\n'
    · subst h2
      rw [show encChar '\n' = ['\\', 'n'] from rfl]
      exact unescapeDouble_esc_n X
    · by_cases h3 : c = '\r'
      · subst h3
        rw [show encChar '\r' = ['\\', 'r'] from rfl]
        exact unescapeDouble_esc_r X
      · by_cases h4 : c = '\t'
        · subst h4
          rw [show encChar '\t' = ['\\', 't'] from rfl]
          exact unescapeDouble_esc_t X
        · rw [show encChar c = [c] from by simp [encChar, h1, h2, h3, h4]]
          exact unescapeDouble_cons_of_ne h X

/-- On backslash-free input the unescape chain inverts the escape chain. -/
theorem unescape_escape {s : List Char} (h : '\\' ∉ s) :
    unescapeDouble (escapeDouble s) = s := by
  induction s with
  | nil => decide
  | cons c s ih =>
    have hc : c ≠ '\\' := fun hcon => h (hcon ▸ List.mem_cons_self _ _)
    have hs : '\\' ∉ s := fun hm => h (List.mem_cons_of_mem _ hm)
    rw [show (c :: s) = [c] ++ s from rfl, escapeDouble_append,
      escapeDouble_single hc, unescapeDouble_enc hc, ih hs]
    exact List.singleton_append.symm

theorem dropWhile_eq_self_of_all {p : Char → Bool} {l : List Char}
    (h : ∀ c ∈ l, p c = false) : l.dropWhile p = l := by
  cases l with
  | nil => rfl
  | cons c s =>
    rw [List.dropWhile_cons, h c (List.mem_cons_self _ _)]
    simp

theorem trimChars_eq_self {v : List Char}
    (h : ∀ c ∈ v, isWsChar c = false) : trimChars v = v := by
  unfold trimChars
  rw [dropWhile_eq_self_of_all h,
    dropWhile_eq_self_of_all (fun c hc => h c (List.mem_reverse.mp hc)),
    List.reverse_reverse]

/-- Trimming leaves a list alone when its first and last characters are
not whitespace. -/
theorem trimChars_of_ends {c d : Char} (hc : isWsChar c = false)
    (hd : isWsChar d = false) (m : List Char) :
    trimChars (c :: m ++ [d]) = c :: m ++ [d] := by
  unfold trimChars
  rw [List.cons_append, List.dropWhile_cons, hc]
  simp only [Bool.false_eq_true, if_false]
  rw [show (c :: (m ++ [d])).reverse = d :: (m.reverse ++ [c]) from by simp,
    List.dropWhile_cons, hd]
  simp only [Bool.false_eq_true, if_false]
  simp

/-- The decomposition of `safeValue`. -/
theorem safeValue_spec {v : List Char} (hv : safeValue v = true) :
    ∀ c ∈ v, c ≠ '\\' ∧ (isWsChar c = false ∨ c = ' ' ∨ c = '\t' ∨
      c = '\n' ∨ c = '\r') := by
  intro c hc
  have h := List.all_eq_true.mp hv c hc
  unfold safeValueChar at h
  simp only [Bool.and_eq_true, Bool.or_eq_true, Bool.not_eq_true,
    decide_eq_true_eq] at h
  obtain ⟨h1, h2⟩ := h
  refine ⟨h1, ?_⟩
  rcases h2 with ((((h2 | h2) | h2) | h2) | h2)
  · exact Or.inl (by simpa using h2)
  · exact Or.inr (Or.inl h2)
  · exact Or.inr (Or.inr (Or.inl h2))
  · exact Or.inr (Or.inr (Or.inr (Or.inl h2)))
  · exact Or.inr (Or.inr (Or.inr (Or.inr h2)))

/-- C3's central value law: decoding the quoted form of a round-trip-safe
value recovers it. -/
theorem unquote_quote {v : List Char} (hv : safeValue v = true) :
    unquoteValue (quoteValue v) = v := by
  by_cases hq : needsQuote v
  · rw [quoteValue, if_pos hq]
    have hbs : '\\' ∉ v := fun hm => ((safeValue_spec hv) _ hm).1 rfl
    have htrim : trimChars ('"' :: escapeDouble v ++ ['"']) =
        '"' :: escapeDouble v ++ ['"'] :=
      trimChars_of_ends (by decide) (by decide) _
    have hh : ('"' :: escapeDouble v ++ ['"']).head? = some '"' := by
      rw [List.cons_append]
      rfl
    have hl : ('"' :: escapeDouble v ++ ['"']).getLast? = some '"' :=
      List.getLast?_concat _
    unfold unquoteValue
    rw [htrim]
    rw [if_neg (by rw [hh, hl]; decide), if_pos (by rw [hh, hl]; decide)]
    rw [show (('"' :: escapeDouble v ++ ['"']).drop 1) =
        escapeDouble v ++ ['"'] from by rw [List.cons_append]; rfl,
      List.dropLast_concat]
    exact unescape_escape hbs
  · rw [quoteValue, if_neg hq]
    have hq2 : needsQuote v = false := by simpa using hq
    unfold needsQuote at hq2
    simp only [Bool.or_eq_false_iff] at hq2
    obtain ⟨⟨⟨⟨⟨⟨⟨hsp, hn⟩, hr⟩, ht⟩, hhash⟩, hdq⟩, hsq⟩, hbs⟩ := hq2
    have hnws : ∀ c ∈ v, isWsChar c = false := by
      intro c hc
      rcases (safeValue_spec hv) c hc with ⟨_, hw⟩
      rcases hw with hw | hw | hw | hw | hw
      · exact hw
      all_goals subst hw
      · exact absurd hc (by simpa using hsp)
      · exact absurd hc (by simpa using ht)
      · exact absurd hc (by simpa using hn)
      · exact absurd hc (by simpa using hr)
    have htrim : trimChars v = v := trimChars_eq_self hnws
    have hsqm : squote ∉ v := by simpa using hsq
    have hdqm : '"' ∉ v := by simpa using hdq
    unfold unquoteValue
    rw [htrim]
    cases v with
    | nil => decide
    | cons c s =>
      have hcsq : ¬c = squote := fun hcon =>
        hsqm (hcon ▸ List.mem_cons_self _ _)
      have hcdq : ¬c = '"' := fun hcon =>
        hdqm (hcon ▸ List.mem_cons_self _ _)
      rw [if_neg (by simp [hcsq]), if_neg (by simp [hcdq])]

/-! ## Splitting and joining lines -/

theorem splitLines_n (rest : List Char) :
    splitLines ('\n' :: rest) = [] :: splitLines rest := rfl

theorem splitLines_other (c : Char) (rest : List Char) (hn : c ≠ '\n')
    (hr : c ≠ '\r') :
    splitLines (c :: rest) =
      (match splitLines rest with
       | [] => [[c]]
       | l :: ls => (c :: l) :: ls) := by
  unfold splitLines
  split
  · next heq => cases heq
  · next rest2 heq =>
    rw [List.cons.injEq] at heq
    exact absurd heq.1 hr
  · next rest2 heq =>
    rw [List.cons.injEq] at heq
    exact absurd heq.1 hn
  · next c2 rest2 h1 h2 heq =>
    rw [List.cons.injEq] at heq
    rw [heq.1, heq.2]
    conv_rhs => rw [← splitLines.eq_def]

/-- Splitting a joined safe line off the front. -/
theorem splitLines_append (l s : List Char)
    (h : ∀ c ∈ l, c ≠ '\n' ∧ c ≠ '\r') :
    splitLines (l ++ '\n' :: s) = l :: splitLines s ∧ splitLines l = [l] := by
  induction l with
  | nil => exact ⟨splitLines_n s, rfl⟩
  | cons c l ih =>
    have hc := h c (List.mem_cons_self _ _)
    obtain ⟨ih1, ih2⟩ := ih fun x hx => h x (List.mem_cons_of_mem _ hx)
    constructor
    · rw [List.cons_append, splitLines_other c _ hc.1 hc.2, ih1]
    · rw [splitLines_other c _ hc.1 hc.2, ih2]

/-- `splitLines` inverts `joinLines` on non-empty lists of lines that
contain no line break characters. -/
theorem splitLines_joinLines (ls : List (List Char)) (hne : ls ≠ [])
    (h : ∀ l ∈ ls, ∀ c ∈ l, c ≠ '\n' ∧ c ≠ '\r') :
    splitLines (joinLines ls) = ls := by
  induction ls with
  | nil => cases hne rfl
  | cons l ls ih =>
    cases ls with
    | nil =>
      exact (splitLines_append l [] (h l (List.mem_cons_self _ _))).2
    | cons l2 ls2 =>
      rw [show joinLines (l :: l2 :: ls2) = l ++ '\n' :: joinLines (l2 :: ls2)
          from rfl,
        (splitLines_append l _ (h l (List.mem_cons_self _ _))).1,
        ih (by simp) fun x hx => h x (List.mem_cons_of_mem _ hx)]

/-- Splitting a CR-free text yields lines made of its characters, free of
line break characters. -/
theorem splitLines_mem_chars (s : List Char) (hs : '\r' ∉ s) :
    ∀ l ∈ splitLines s, (∀ c ∈ l, c ∈ s) ∧ '\n' ∉ l ∧ '\r' ∉ l := by
  induction s with
  | nil =>
    intro l hl
    rw [show splitLines [] = [[]] from rfl, List.mem_singleton] at hl
    subst hl
    exact ⟨fun c hc => absurd hc (List.not_mem_nil c), List.not_mem_nil _,
      List.not_mem_nil _⟩
  | cons c s ih =>
    have hcr : c ≠ '\r' := fun h => hs (h ▸ List.mem_cons_self _ _)
    have hs2 : '\r' ∉ s := fun h => hs (List.mem_cons_of_mem _ h)
    by_cases hcn : c = '\n'
    · subst hcn
      rw [splitLines_n]
      intro l hl
      rcases List.mem_cons.mp hl with rfl | hl
      · exact ⟨fun c hc => absurd hc (List.not_mem_nil c), List.not_mem_nil _,
          List.not_mem_nil _⟩
      · obtain ⟨h1, h2, h3⟩ := ih hs2 l hl
        exact ⟨fun x hx => List.mem_cons_of_mem _ (h1 x hx), h2, h3⟩
    · rw [splitLines_other c s hcn hcr]
      intro l hl
      cases hsp : splitLines s with
      | nil =>
        rw [hsp, List.mem_singleton] at hl
        subst hl
        refine ⟨fun x hx => ?_, fun hx => ?_, fun hx => ?_⟩
        · rw [List.mem_singleton] at hx
          exact hx ▸ List.mem_cons_self _ _
        · rw [List.mem_singleton] at hx
          exact hcn hx.symm
        · rw [List.mem_singleton] at hx
          exact hcr hx.symm
      | cons l0 ls0 =>
        rw [hsp] at hl
        rcases List.mem_cons.mp hl with rfl | hl
        · obtain ⟨h1, h2, h3⟩ := ih hs2 l0 (hsp ▸ List.mem_cons_self _ _)
          refine ⟨fun x hx => ?_, fun hx => ?_, fun hx => ?_⟩
          · rcases List.mem_cons.mp hx with rfl | hx
            · exact List.mem_cons_self _ _
            · exact List.mem_cons_of_mem _ (h1 x hx)
          · rcases List.mem_cons.mp hx with h | h
            · exact hcn h.symm
            · exact h2 h
          · rcases List.mem_cons.mp hx with h | h
            · exact hcr h.symm
            · exact h3 h
        · obtain ⟨h1, h2, h3⟩ :=
            ih hs2 l (hsp ▸ List.mem_cons_of_mem _ hl)
          exact ⟨fun x hx => List.mem_cons_of_mem _ (h1 x hx), h2, h3⟩

/-! ## Well-formed lines of a safe text -/

/-- A text-safe character is value-safe. -/
theorem safeTextChar_safeValueChar {c : Char} (h : safeTextChar c = true) :
    safeValueChar c = true := by
  unfold safeTextChar at h
  unfold safeValueChar
  simp only [Bool.and_eq_true, Bool.or_eq_true] at h ⊢
  exact ⟨h.1, Or.inl h.2⟩

/-- Unescaping a backslash-free string changes nothing. -/
theorem unescapeDouble_eq_self {s : List Char} (h : '\\' ∉ s) :
    unescapeDouble s = s := by
  induction s with
  | nil => rfl
  | cons c s ih =>
    have hc : c ≠ '\\' := fun hcon => h (hcon ▸ List.mem_cons_self _ _)
    rw [unescapeDouble_cons_of_ne hc, ih fun hm => h (List.mem_cons_of_mem _ hm)]

/-- Trimming only removes characters. -/
theorem trimChars_subset {s : List Char} : ∀ c ∈ trimChars s, c ∈ s := by
  intro c hc
  unfold trimChars at hc
  rw [List.mem_reverse] at hc
  have h1 := (List.dropWhile_sublist (l := (s.dropWhile isWsChar).reverse)
    (p := isWsChar)).subset hc
  rw [List.mem_reverse] at h1
  exact (List.dropWhile_sublist (l := s) (p := isWsChar)).subset h1

/-- On a backslash-free value, `unquoteValue` only removes characters. -/
theorem unquoteValue_subset {s : List Char} (h : '\\' ∉ s) :
    ∀ c ∈ unquoteValue s, c ∈ s := by
  intro c hc
  unfold unquoteValue at hc
  have hsub : ∀ x ∈ ((trimChars s).drop 1).dropLast, x ∈ s := fun x hx =>
    trimChars_subset _ (List.drop_subset 1 _ (List.dropLast_sublist _ |>.subset hx))
  by_cases h1 : (trimChars s).head? = some squote ∧
      (trimChars s).getLast? = some squote
  · rw [if_pos (by simp [h1.1, h1.2])] at hc
    exact hsub c hc
  · rw [if_neg (by simpa [Bool.and_eq_true, decide_eq_true_eq] using h1)] at hc
    by_cases h2 : (trimChars s).head? = some '"' ∧
        (trimChars s).getLast? = some '"'
    · rw [if_pos (by simp [h2.1, h2.2])] at hc
      rw [unescapeDouble_eq_self (fun hm => h (hsub _ hm))] at hc
      exact hsub c hc
    · rw [if_neg (by simpa [Bool.and_eq_true, decide_eq_true_eq] using h2)] at hc
      exact trimChars_subset _ hc

/-- A matched key is a well-formed identifier. -/
theorem goodKey_of_matchVar {line k val : List Char}
    (h : matchVarLine line = some (k, val)) : goodKey k = true := by
  obtain ⟨c, rest, tail, rfl, hs, hk, hd, hval, hterm⟩ := matchVarLine_shape h
  subst hk
  rw [show goodKey (c :: List.takeWhile isIdentChar rest) =
      (isIdentStart c && (List.takeWhile isIdentChar rest).all isIdentChar)
    from rfl, hs, Bool.true_and, List.all_eq_true]
  exact fun x hx => List.mem_takeWhile_imp hx

/-- A matched raw value is made of characters of the line. -/
theorem matchVar_val_subset {line k val : List Char}
    (h : matchVarLine line = some (k, val)) : ∀ c ∈ val, c ∈ line := by
  obtain ⟨c0, rest, tail, rfl, hs, hk, hd, hval, hterm⟩ := matchVarLine_shape h
  intro x hx
  subst hval
  have h1 : x ∈ tail := (List.dropWhile_sublist _).subset hx
  have h2 : x ∈ '=' :: tail := List.mem_cons_of_mem _ h1
  rw [← hd] at h2
  have h3 : x ∈ rest.dropWhile isIdentChar := (List.dropWhile_sublist _).subset h2
  exact List.mem_cons_of_mem _ ((List.dropWhile_sublist _).subset h3)

/-- Classifying a line without line breaks whose characters are text-safe
yields a well-formed line. -/
theorem parseLine_lineGood {l : List Char}
    (hl : ∀ c ∈ l, safeTextChar c = true)
    (hn : '\n' ∉ l) (hr : '\r' ∉ l) : lineGood (parseLine l) := by
  have hbs : '\\' ∉ l := fun hm => by
    have := hl _ hm
    unfold safeTextChar at this
    simp at this
  by_cases h0 : (trimChars l).isEmpty
  · have : parseLine l = .empty := by
      rw [parseLine_eq_empty_iff]
      simpa [List.isEmpty_iff] using h0
    rw [this]
    trivial
  · have h0b : trimChars l ≠ [] := by simpa [List.isEmpty_iff] using h0
    by_cases h1 : (trimChars l).head? = some '#'
    · have : parseLine l = .comment l := by
        unfold parseLine
        simp [h0, h1]
      rw [this]
      exact ⟨this, hn, hr⟩
    · cases hm : matchVarLine l with
      | none =>
        have := parseLine_comment_of_unmatched l h0b h1 hm
        rw [this]
        exact ⟨this, hn, hr⟩
      | some kv =>
        obtain ⟨k, val⟩ := kv
        rw [parseLine_of_matchVar hm]
        refine ⟨goodKey_of_matchVar hm, ?_⟩
        rw [safeValue, List.all_eq_true]
        intro x hx
        have hxl : x ∈ l := by
          have hvs : '\\' ∉ val := fun hmem => hbs (matchVar_val_subset hm _ hmem)
          exact matchVar_val_subset hm _ (unquoteValue_subset hvs _ hx)
        exact safeTextChar_safeValueChar (hl _ hxl)

/-- A safe text has no carriage return. -/
theorem safeText_no_cr {t : List Char} (ht : safeText t = true) : '\r' ∉ t :=
  fun hm => by
    have := List.all_eq_true.mp ht _ hm
    simp [safeTextChar, isWsChar] at this

/-- Every classified line of a safe text is well formed. -/
theorem lines_lineGood {t : List Char} (ht : safeText t = true) :
    ∀ l ∈ (splitLines t).map parseLine, lineGood l := by
  intro l hl
  rw [List.mem_map] at hl
  obtain ⟨x, hx, rfl⟩ := hl
  obtain ⟨h1, h2, h3⟩ := splitLines_mem_chars t (safeText_no_cr ht) x hx
  exact parseLine_lineGood (fun c hc => List.all_eq_true.mp ht _ (h1 c hc)) h2 h3

/-- A stored comment line is never the empty string. -/
theorem lineOk_ne_nil {c : List Char} (h : lineOk c) : c ≠ [] := by
  intro hcon
  subst hcon
  have := h.1
  rw [show parseLine [] = Line.empty from rfl] at this
  cases this

/-! ## One-step equations of the grouping loop -/

theorem parseBlocksAux_nileq (p : List (List Char)) (br he : Bool) :
    parseBlocksAux [] p br he = if p.isEmpty then [] else [.comment p] := rfl

theorem parseBlocksAux_vareq (k v r : List Char) (rest : List Line)
    (p : List (List Char)) (br he : Bool) :
    parseBlocksAux (.var k v r :: rest) p br he =
      .var k v r p :: parseBlocksAux rest [] false false := rfl

theorem parseBlocksAux_commenteq (c : List Char) (rest : List Line)
    (p : List (List Char)) (br he : Bool) :
    parseBlocksAux (.comment c :: rest) p br he =
      if !p.isEmpty && he then
        .comment p :: parseBlocksAux rest [c] false false
      else parseBlocksAux rest (p ++ [c]) false he := rfl

theorem parseBlocksAux_emptyeq (rest : List Line) (p : List (List Char))
    (br he : Bool) :
    parseBlocksAux (.empty :: rest) p br he =
      if !p.isEmpty then
        if isNextNonEmptyComment rest then
          if br then parseBlocksAux rest p true he
          else parseBlocksAux rest (p ++ [[]]) true true
        else
          if br then parseBlocksAux rest p true he
          else .comment p :: .empty :: parseBlocksAux rest [] true false
      else
        if br then parseBlocksAux rest [] true he
        else .empty :: parseBlocksAux rest [] true he := rfl

/-- A block list opening with a comment line does not open with a blank
block. -/
theorem startsWith_not_empty {d : List Block} (h : startsWithCommentLine d) :
    headNotEmptyBlock d := by
  cases d with
  | nil => exact h.elim
  | cons b d =>
    cases b with
    | comment ls => trivial
    | empty => exact h.elim
    | var k v r cs =>
      cases cs with
      | nil => exact h.elim
      | cons a b => trivial

/-- The grouping-loop invariant: well-formed input lines and a well-formed
pending state produce a well-formed block list.  Additionally, with pending
comments the output opens with a comment line; with empty pending state and
an open blank run it never opens with a blank block, and opens with a
comment-free variable block or nothing when no comment line follows. -/
theorem parseBlocksAux_wf (ls : List Line) (p : List (List Char))
    (br he : Bool) (hls : ∀ l ∈ ls, lineGood l)
    (hT : he = true → ∃ core, core ≠ [] ∧ p = core ++ [[]] ∧
      (∀ c ∈ core, lineOk c) ∧ br = true ∧ isNextNonEmptyComment ls = true)
    (hF : he = false → ∀ c ∈ p, lineOk c) :
    WFDoc (parseBlocksAux ls p br he) ∧
    (p ≠ [] → startsWithCommentLine (parseBlocksAux ls p br he)) ∧
    (p = [] → br = true → headNotEmptyBlock (parseBlocksAux ls p br he)) ∧
    (p = [] → br = true → isNextNonEmptyComment ls = false →
      headVarNoCommentsOrNil (parseBlocksAux ls p br he)) := by
  induction ls generalizing p br he with
  | nil =>
    have he0 : he = false := by
      cases he with
      | false => rfl
      | true =>
        obtain ⟨_, _, _, _, _, hnext⟩ := hT rfl
        rw [show isNextNonEmptyComment ([] : List Line) = false from rfl] at hnext
        cases hnext
    subst he0
    have hp := hF rfl
    cases p with
    | nil =>
      rw [parseBlocksAux_nileq]
      simp only [List.isEmpty_nil, if_true]
      exact ⟨WFDoc.nil, fun h => absurd rfl h, fun _ _ => trivial,
        fun _ _ _ => trivial⟩
    | cons c p =>
      rw [parseBlocksAux_nileq]
      simp only [List.isEmpty_cons, Bool.false_eq_true, if_false]
      exact ⟨WFDoc.commentLast (by simp) hp, fun _ => trivial,
        fun h _ => absurd h (by simp), fun h _ _ => absurd h (by simp)⟩
  | cons l rest ih =>
    have hrest : ∀ x ∈ rest, lineGood x := fun x hx =>
      hls x (List.mem_cons_of_mem _ hx)
    have hhead := hls l (List.mem_cons_self _ _)
    cases l with
    | var k v r =>
      have he0 : he = false := by
        cases he with
        | false => rfl
        | true =>
          obtain ⟨_, _, _, _, _, hnext⟩ := hT rfl
          rw [show isNextNonEmptyComment (Line.var k v r :: rest) = false
            from rfl] at hnext
          cases hnext
      subst he0
      have hp := hF rfl
      obtain ⟨hgk, hgv⟩ := hhead
      rw [parseBlocksAux_vareq]
      have IH := ih [] false false hrest
        (fun h => absurd h (by decide))
        (fun _ c hc => absurd hc (List.not_mem_nil c))
      refine ⟨WFDoc.var hgk hgv hp IH.1, ?_, ?_, ?_⟩
      · intro hpne
        cases p with
        | nil => exact absurd rfl hpne
        | cons a b => trivial
      · intro hp0 _
        trivial
      · intro hp0 _ _
        subst hp0
        trivial
    | comment c =>
      rw [parseBlocksAux_commenteq]
      by_cases hcond : (!p.isEmpty && he) = true
      · obtain ⟨hpe, hhe⟩ : p.isEmpty = false ∧ he = true := by
          simpa using hcond
        obtain ⟨core, hcne, hpeq, hcore, hbr, _⟩ := hT hhe
        rw [if_pos hcond]
        have IH := ih [c] false false hrest
          (fun h => absurd h (by decide))
          (fun _ x hx => by
            rw [List.mem_singleton] at hx
            exact hx ▸ hhead)
        refine ⟨?_, fun _ => trivial, ?_, ?_⟩
        · subst hpeq
          exact WFDoc.commentMark hcne hcore (IH.2.1 (by simp)) IH.1
        · intro hp0
          rw [hp0] at hpe
          simp at hpe
        · intro hp0
          rw [hp0] at hpe
          simp at hpe
      · rw [if_neg hcond]
        have he0 : he = false := by
          cases he with
          | false => rfl
          | true =>
            obtain ⟨core, hcne, hpeq, _, _, _⟩ := hT rfl
            apply absurd ?_ hcond
            rw [hpeq]
            simp
        subst he0
        have hp := hF rfl
        have IH := ih (p ++ [c]) false false hrest
          (fun h => absurd h (by decide))
          (fun _ x hx => by
            rcases List.mem_append.mp hx with hx | hx
            · exact hp x hx
            · rw [List.mem_singleton] at hx
              exact hx ▸ hhead)
        refine ⟨IH.1, fun _ => IH.2.1 (by simp), ?_, ?_⟩
        · intro _ _
          exact startsWith_not_empty (IH.2.1 (by simp))
        · intro _ _ hnext
          rw [show isNextNonEmptyComment (Line.comment c :: rest) = true
            from rfl] at hnext
          cases hnext
    | empty =>
      rw [parseBlocksAux_emptyeq]
      have hnx : isNextNonEmptyComment (Line.empty :: rest) =
          isNextNonEmptyComment rest := rfl
      by_cases hp : p.isEmpty = true
      · have hp0 : p = [] := List.isEmpty_iff.mp hp
        subst hp0
        have he0 : he = false := by
          cases he with
          | false => rfl
          | true =>
            obtain ⟨core, hcne, hpeq, _, _, _⟩ := hT rfl
            exact absurd hpeq.symm (by simp [hcne])
        subst he0
        simp only [List.isEmpty_nil, Bool.not_true, Bool.false_eq_true,
          if_false]
        have IH := ih [] true false hrest
          (fun h => absurd h (by decide))
          (fun _ x hx => absurd hx (List.not_mem_nil x))
        by_cases hbr : br = true
        · rw [if_pos hbr]
          refine ⟨IH.1, fun h => absurd rfl h, fun _ _ => IH.2.2.1 rfl rfl, ?_⟩
          intro _ _ hnext
          rw [hnx] at hnext
          exact IH.2.2.2 rfl rfl hnext
        · rw [if_neg hbr]
          refine ⟨WFDoc.emptyB (IH.2.2.1 rfl rfl) IH.1, fun h => absurd rfl h,
            ?_, ?_⟩
          · intro _ hb
            exact absurd hb hbr
          · intro _ hb
            exact absurd hb hbr
      · have hpne : p ≠ [] := fun h => hp (by simp [h])
        have hpe : p.isEmpty = false := Bool.not_eq_true _ |>.mp hp
        simp only [hpe, Bool.not_false, if_true]
        by_cases hnc : isNextNonEmptyComment rest = true
        · rw [if_pos hnc]
          by_cases hbr : br = true
          · rw [if_pos hbr]
            have IH := ih p true he
              hrest
              (fun h => by
                obtain ⟨core, hcne, hpeq, hcore, hbcur, hnext⟩ := hT h
                rw [hnx] at hnext
                exact ⟨core, hcne, hpeq, hcore, rfl, hnext⟩)
              hF
            refine ⟨IH.1, fun _ => IH.2.1 hpne, ?_, ?_⟩
            · intro hq
              exact absurd hq hpne
            · intro hq
              exact absurd hq hpne
          · rw [if_neg hbr]
            have he0 : he = false := by
              cases he with
              | false => rfl
              | true =>
                obtain ⟨_, _, _, _, hbcur, _⟩ := hT rfl
                exact absurd hbcur hbr
            subst he0
            have hpok := hF rfl
            have IH := ih (p ++ [[]]) true true
              hrest
              (fun _ => ⟨p, hpne, rfl, hpok, rfl, hnc⟩)
              (fun h => absurd h (by decide))
            refine ⟨IH.1, fun _ => IH.2.1 (by simp), ?_, ?_⟩
            · intro hq
              exact absurd hq hpne
            · intro hq
              exact absurd hq hpne
        · rw [if_neg hnc]
          have he0 : he = false := by
            cases he with
            | false => rfl
            | true =>
              obtain ⟨_, _, _, _, _, hnext⟩ := hT rfl
              rw [hnx] at hnext
              exact absurd hnext hnc
          subst he0
          have hpok := hF rfl
          by_cases hbr : br = true
          · rw [if_pos hbr]
            have IH := ih p true false hrest
              (fun h => absurd h (by decide)) (fun _ => hpok)
            refine ⟨IH.1, fun _ => IH.2.1 hpne, ?_, ?_⟩
            · intro hq
              exact absurd hq hpne
            · intro hq
              exact absurd hq hpne
          · rw [if_neg hbr]
            have IH := ih [] true false hrest
              (fun h => absurd h (by decide))
              (fun _ x hx => absurd hx (List.not_mem_nil x))
            have hncf : isNextNonEmptyComment rest = false :=
              Bool.not_eq_true _ |>.mp hnc
            refine ⟨WFDoc.commentEmpty hpne hpok
              (IH.2.2.2 rfl rfl hncf) IH.1, fun _ => trivial, ?_, ?_⟩
            · intro hq
              exact absurd hq hpne
            · intro hq
              exact absurd hq hpne

/-! ## Serialized variable lines parse back -/

/-- Every JavaScript line terminator is whitespace. -/
theorem lineTerm_ws {c : Char} (h : isLineTerm c = true) : isWsChar c = true := by
  unfold isLineTerm at h
  simp only [Bool.or_eq_true, decide_eq_true_eq] at h
  unfold isWsChar
  rcases h with ((h | h) | h) | h <;> rw [h] <;> decide

/-- A value-safe character other than LF and CR is no line terminator. -/
theorem safeValueChar_no_lineTerm {c : Char} (h : safeValueChar c = true)
    (h2 : c ≠ '\n') (h3 : c ≠ '\r') : isLineTerm c = false := by
  cases hlt : isLineTerm c with
  | false => rfl
  | true =>
    have hws := lineTerm_ws hlt
    unfold safeValueChar at h
    simp only [Bool.and_eq_true, Bool.or_eq_true, Bool.not_eq_true,
      decide_eq_true_eq] at h
    rcases h.2 with (((hc | hc) | hc) | hc) | hc
    · rw [hws] at hc
      cases hc
    · subst hc
      cases hlt
    · subst hc
      cases hlt
    · exact absurd hc h2
    · exact absurd hc h3

/-- The escaped form of a value-safe character holds no line terminator. -/
theorem encChar_no_lineTerm {c x : Char} (hc : safeValueChar c = true)
    (hx : x ∈ encChar c) : isLineTerm x = false := by
  unfold encChar at hx
  by_cases h1 : c = '"'
  · rw [if_pos h1] at hx
    rcases List.mem_cons.mp hx with rfl | hx
    · rfl
    · rw [List.mem_singleton] at hx
      subst hx
      rfl
  · rw [if_neg h1] at hx
    by_cases h2 : c = '\n'
    · rw [if_pos h2] at hx
      rcases List.mem_cons.mp hx with rfl | hx
      · rfl
      · rw [List.mem_singleton] at hx
        subst hx
        rfl
    · rw [if_neg h2] at hx
      by_cases h3 : c = '\r'
      · rw [if_pos h3] at hx
        rcases List.mem_cons.mp hx with rfl | hx
        · rfl
        · rw [List.mem_singleton] at hx
          subst hx
          rfl
      · rw [if_neg h3] at hx
        by_cases h4 : c = '\t'
        · rw [if_pos h4] at hx
          rcases List.mem_cons.mp hx with rfl | hx
          · rfl
          · rw [List.mem_singleton] at hx
            subst hx
            rfl
        · rw [if_neg h4, List.mem_singleton] at hx
          subst hx
          exact safeValueChar_no_lineTerm hc h2 h3

/-- On a backslash-free value the escape chain acts character by
character. -/
theorem escapeDouble_flatten {v : List Char} (h : '\\' ∉ v) :
    escapeDouble v = (v.map encChar).flatten := by
  induction v with
  | nil => rfl
  | cons c v ih =>
    have hc : c ≠ '\\' := fun hcon => h (hcon ▸ List.mem_cons_self _ _)
    have hv2 : '\\' ∉ v := fun hm => h (List.mem_cons_of_mem _ hm)
    have h1 : escapeDouble (c :: v) = escapeDouble [c] ++ escapeDouble v := by
      rw [← escapeDouble_append]
      rfl
    rw [h1, escapeDouble_single hc, ih hv2, List.map_cons, List.flatten_cons]

/-- Membership transfer for `List.contains` on characters. -/
theorem contains_eq_false_iff {a : Char} {l : List Char} :
    l.contains a = false ↔ a ∉ l := by
  induction l with
  | nil => simp
  | cons c l ih =>
    rw [List.contains_cons, Bool.or_eq_false_iff, ih]
    simp [beq_eq_false_iff_ne, List.mem_cons, not_or]

/-- The eight absent-character facts of a value that needs no quoting. -/
theorem needsQuote_false_not_mem {v : List Char} (hq : needsQuote v = false) :
    ' ' ∉ v ∧ '\n' ∉ v ∧ '\r' ∉ v ∧ '\t' ∉ v ∧ '#' ∉ v ∧ '"' ∉ v ∧
      squote ∉ v ∧ '\\' ∉ v := by
  unfold needsQuote at hq
  simp only [Bool.or_eq_false_iff] at hq
  obtain ⟨⟨⟨⟨⟨⟨⟨h1, h2⟩, h3⟩, h4⟩, h5⟩, h6⟩, h7⟩, h8⟩ := hq
  exact ⟨contains_eq_false_iff.mp h1, contains_eq_false_iff.mp h2,
    contains_eq_false_iff.mp h3, contains_eq_false_iff.mp h4,
    contains_eq_false_iff.mp h5, contains_eq_false_iff.mp h6,
    contains_eq_false_iff.mp h7, contains_eq_false_iff.mp h8⟩

/-- A value that needs no quoting and is value-safe holds no whitespace at
all. -/
theorem noQuote_no_ws {v : List Char} (hv : safeValue v = true)
    (hq : needsQuote v = false) : ∀ c ∈ v, isWsChar c = false := by
  intro c hc
  obtain ⟨hsp, hn, hr, ht, _, _, _, _⟩ := needsQuote_false_not_mem hq
  have h := List.all_eq_true.mp hv c hc
  unfold safeValueChar at h
  simp only [Bool.and_eq_true, Bool.or_eq_true, Bool.not_eq_true,
    decide_eq_true_eq] at h
  rcases h.2 with (((hc2 | hc2) | hc2) | hc2) | hc2
  · simpa using hc2
  · exact absurd (hc2 ▸ hc) hsp
  · exact absurd (hc2 ▸ hc) ht
  · exact absurd (hc2 ▸ hc) hn
  · exact absurd (hc2 ▸ hc) hr

/-- No character of the quoted form of a safe value is a line
terminator. -/
theorem quoteValue_chars {v : List Char} (hv : safeValue v = true) :
    ∀ x ∈ quoteValue v, isLineTerm x = false := by
  intro x hx
  unfold quoteValue at hx
  by_cases hq : needsQuote v
  · rw [if_pos hq] at hx
    rcases List.mem_cons.mp hx with rfl | hx
    · rfl
    · rcases List.mem_append.mp hx with hx | hx
      · have hbs : '\\' ∉ v := fun hm =>
          ((safeValue_spec hv) _ hm).1 rfl
        rw [escapeDouble_flatten hbs] at hx
        rw [List.mem_flatten] at hx
        obtain ⟨l, hl, hxl⟩ := hx
        rw [List.mem_map] at hl
        obtain ⟨c, hcv, rfl⟩ := hl
        exact encChar_no_lineTerm (List.all_eq_true.mp hv c hcv) hxl
      · rw [List.mem_singleton] at hx
        subst hx
        rfl
  · rw [if_neg hq] at hx
    obtain ⟨_, hn, hr, _, _, _, _, _⟩ :=
      needsQuote_false_not_mem (Bool.not_eq_true _ |>.mp hq)
    exact safeValueChar_no_lineTerm (List.all_eq_true.mp hv x hx)
      (fun h => hn (h ▸ hx)) (fun h => hr (h ▸ hx))

/-- Dropping a satisfied prefix up to a failing delimiter. -/
theorem dropWhile_append_all {p : Char → Bool} {x : List Char}
    (hx : ∀ c ∈ x, p c = true) {d : Char} (hd : p d = false) (y : List Char) :
    (x ++ d :: y).dropWhile p = d :: y := by
  induction x with
  | nil =>
    rw [List.nil_append, List.dropWhile_cons, hd]
    simp
  | cons c x ih =>
    rw [List.cons_append, List.dropWhile_cons, hx c (List.mem_cons_self _ _),
      if_pos rfl]
    exact ih fun a ha => hx a (List.mem_cons_of_mem _ ha)

/-- Taking a satisfied prefix up to a failing delimiter. -/
theorem takeWhile_append_all {p : Char → Bool} {x : List Char}
    (hx : ∀ c ∈ x, p c = true) {d : Char} (hd : p d = false) (y : List Char) :
    (x ++ d :: y).takeWhile p = x := by
  induction x with
  | nil =>
    rw [List.nil_append, List.takeWhile_cons, hd]
    simp
  | cons c x ih =>
    rw [List.cons_append, List.takeWhile_cons, hx c (List.mem_cons_self _ _),
      if_pos rfl, ih fun a ha => hx a (List.mem_cons_of_mem _ ha)]

/-- The quoted form of a safe value survives a leading whitespace strip. -/
theorem quoteValue_dropWhile {v : List Char} (hv : safeValue v = true) :
    (quoteValue v).dropWhile isWsChar = quoteValue v := by
  unfold quoteValue
  by_cases hq : needsQuote v
  · rw [if_pos hq, List.cons_append, List.dropWhile_cons,
      show isWsChar '"' = false from rfl]
    simp
  · rw [if_neg hq]
    exact dropWhile_eq_self_of_all
      (noQuote_no_ws hv (Bool.not_eq_true _ |>.mp hq))

/-- The regex match on a re-derived variable line recovers the key and the
quoted value. -/
theorem matchVar_varLine {k v : List Char} (hk : goodKey k = true)
    (hv : safeValue v = true) :
    matchVarLine (k ++ '=' :: quoteValue v) = some (k, quoteValue v) := by
  cases k with
  | nil =>
    rw [show goodKey [] = false from rfl] at hk
    cases hk
  | cons k0 k1 =>
    have hs : isIdentStart k0 = true ∧ k1.all isIdentChar = true := by
      rw [show goodKey (k0 :: k1) = (isIdentStart k0 && k1.all isIdentChar)
        from rfl] at hk
      simpa using hk
    have hid : ∀ c ∈ k1, isIdentChar c = true := List.all_eq_true.mp hs.2
    have hdrop : (k1 ++ '=' :: quoteValue v).dropWhile isIdentChar =
        '=' :: quoteValue v := dropWhile_append_all hid (by decide) _
    have htake : (k1 ++ '=' :: quoteValue v).takeWhile isIdentChar = k1 :=
      takeWhile_append_all hid (by decide) _
    have hws : ('=' :: quoteValue v).dropWhile isWsChar =
        '=' :: quoteValue v := by
      rw [List.dropWhile_cons, show isWsChar '=' = false from rfl]
      simp
    have hterm : (quoteValue v).any isLineTerm = false := by
      rw [List.any_eq_false]
      exact fun x hx => by simp [quoteValue_chars hv x hx]
    rw [List.cons_append]
    simp only [matchVarLine]
    rw [if_pos hs.1]
    split
    · next tail heq =>
      rw [hdrop, hws] at heq
      obtain rfl : quoteValue v = tail := by
        simpa using heq
      rw [quoteValue_dropWhile hv, htake, hterm]
      simp
    · next hne =>
      have h := hne (quoteValue v)
      rw [hdrop, hws] at h
      exact absurd rfl h

/-- A re-derived variable line classifies back to the same key and
value. -/
theorem parseLine_varLine {k v : List Char} (hk : goodKey k = true)
    (hv : safeValue v = true) :
    parseLine (k ++ '=' :: quoteValue v) =
      .var k v (k ++ '=' :: quoteValue v) := by
  rw [parseLine_of_matchVar (matchVar_varLine hk hv), unquote_quote hv]

/-- Every character of a well-formed key is an identifier character. -/
theorem goodKey_mem_ident {k : List Char} (hk : goodKey k = true) :
    ∀ c ∈ k, isIdentChar c = true := by
  cases k with
  | nil =>
    rw [show goodKey [] = false from rfl] at hk
    cases hk
  | cons k0 k1 =>
    have hs : isIdentStart k0 = true ∧ k1.all isIdentChar = true := by
      rw [show goodKey (k0 :: k1) = (isIdentStart k0 && k1.all isIdentChar)
        from rfl] at hk
      simpa using hk
    intro c hc
    rcases List.mem_cons.mp hc with rfl | hc
    · exact isIdentStart_isIdentChar hs.1
    · exact List.all_eq_true.mp hs.2 c hc

/-- A re-derived variable line holds no line break characters. -/
theorem varLineText_no_break {k v : List Char} (hk : goodKey k = true)
    (hv : safeValue v = true) :
    '\n' ∉ (k ++ '=' :: quoteValue v) ∧ '\r' ∉ (k ++ '=' :: quoteValue v) := by
  constructor
  · intro hm
    rcases List.mem_append.mp hm with hm | hm
    · have h1 := identChar_not_ws (goodKey_mem_ident hk _ hm)
      rw [show isWsChar '\n' = true from rfl] at h1
      cases h1
    · rcases List.mem_cons.mp hm with h | h
      · cases h
      · have h1 := quoteValue_chars hv _ h
        rw [show isLineTerm '\n' = true from rfl] at h1
        cases h1
  · intro hm
    rcases List.mem_append.mp hm with hm | hm
    · have h1 := identChar_not_ws (goodKey_mem_ident hk _ hm)
      rw [show isWsChar '\x0d' = true from rfl] at h1
      cases h1
    · rcases List.mem_cons.mp hm with h | h
      · cases h
      · have h1 := quoteValue_chars hv _ h
        rw [show isLineTerm '\x0d' = true from rfl] at h1
        cases h1

theorem reSer_cons (b : Block) (d : List Block) :
    reSer (b :: d) = reSerBlock b ++ reSer d := by
  simp [reSer]

/-- Serializing a well-formed document yields line texts free of line
breaks which classify back exactly to the expanded line list `reSer`. -/
theorem reSer_spec {d : List Block} (h : WFDoc d) :
    (∀ l ∈ serializeBlocks d, '\n' ∉ lineToText l ∧ '\r' ∉ lineToText l) ∧
    (serializeBlocks d).map (fun l => parseLine (lineToText l)) = reSer d := by
  induction h with
  | nil => exact ⟨fun l hl => absurd hl (List.not_mem_nil l), rfl⟩
  | @var k v r cs rest hgk hgv hcs hrest ih =>
    rw [show serializeBlocks (.var k v r cs :: rest) =
      cs.map Line.comment ++ Line.var k v r :: serializeBlocks rest from rfl]
    constructor
    · intro l hl
      rcases List.mem_append.mp hl with hl | hl
      · rw [List.mem_map] at hl
        obtain ⟨c, hc, rfl⟩ := hl
        exact ⟨(hcs c hc).2.1, (hcs c hc).2.2⟩
      · rcases List.mem_cons.mp hl with rfl | hl
        · exact varLineText_no_break hgk hgv
        · exact ih.1 l hl
    · rw [List.map_append, List.map_cons, reSer_cons,
        show reSerBlock (.var k v r cs) =
          cs.map Line.comment ++ [.var k v (k ++ '=' :: quoteValue v)]
        from rfl, List.append_assoc, List.singleton_append]
      congr 1
      · rw [List.map_map]
        exact List.map_congr_left fun c hc => (hcs c hc).1
      · rw [show lineToText (Line.var k v r) = k ++ '=' :: quoteValue v
          from rfl, parseLine_varLine hgk hgv]
        rw [ih.2]
  | @commentLast core hcne hcore =>
    rw [show serializeBlocks [.comment core] =
      core.map Line.comment ++ serializeBlocks [] from rfl,
      show serializeBlocks ([] : List Block) = [] from rfl, List.append_nil]
    constructor
    · intro l hl
      rw [List.mem_map] at hl
      obtain ⟨c, hc, rfl⟩ := hl
      exact ⟨(hcore c hc).2.1, (hcore c hc).2.2⟩
    · rw [List.map_map, reSer_cons,
        show reSer ([] : List Block) = [] from rfl, List.append_nil,
        show reSerBlock (.comment core) =
          core.map fun c => if c.isEmpty then Line.empty else Line.comment c
        from rfl]
      refine List.map_congr_left fun c hc => ?_
      rw [if_neg (by simpa [List.isEmpty_iff] using lineOk_ne_nil (hcore c hc))]
      exact (hcore c hc).1
  | @commentEmpty core rest hcne hcore hhv hrest ih =>
    rw [show serializeBlocks (.comment core :: .empty :: rest) =
      core.map Line.comment ++ Line.empty :: serializeBlocks rest from rfl]
    constructor
    · intro l hl
      rcases List.mem_append.mp hl with hl | hl
      · rw [List.mem_map] at hl
        obtain ⟨c, hc, rfl⟩ := hl
        exact ⟨(hcore c hc).2.1, (hcore c hc).2.2⟩
      · rcases List.mem_cons.mp hl with rfl | hl
        · exact ⟨List.not_mem_nil _, List.not_mem_nil _⟩
        · exact ih.1 l hl
    · rw [List.map_append, List.map_cons, reSer_cons, reSer_cons,
        show reSerBlock (.comment core) =
          core.map fun c => if c.isEmpty then Line.empty else Line.comment c
        from rfl,
        show reSerBlock Block.empty = [Line.empty] from rfl,
        List.singleton_append]
      congr 1
      · rw [List.map_map]
        refine List.map_congr_left fun c hc => ?_
        rw [if_neg (by simpa [List.isEmpty_iff] using
            lineOk_ne_nil (hcore c hc))]
        exact (hcore c hc).1
      · rw [ih.2]
        rfl
  | @commentMark core rest hcne hcore hsw hrest ih =>
    rw [show serializeBlocks (.comment (core ++ [[]]) :: rest) =
      (core ++ [[]]).map Line.comment ++ serializeBlocks rest from rfl]
    constructor
    · intro l hl
      rcases List.mem_append.mp hl with hl | hl
      · rw [List.mem_map] at hl
        obtain ⟨c, hc, rfl⟩ := hl
        rcases List.mem_append.mp hc with hc | hc
        · exact ⟨(hcore c hc).2.1, (hcore c hc).2.2⟩
        · rw [List.mem_singleton] at hc
          subst hc
          exact ⟨List.not_mem_nil _, List.not_mem_nil _⟩
      · exact ih.1 l hl
    · rw [List.map_append, reSer_cons,
        show reSerBlock (.comment (core ++ [[]])) =
          (core ++ [[]]).map (fun c : List Char =>
            if c.isEmpty then Line.empty else Line.comment c)
        from rfl]
      congr 1
      · rw [List.map_map]
        refine List.map_congr_left fun c hc => ?_
        rcases List.mem_append.mp hc with hc | hc
        · rw [if_neg (by simpa [List.isEmpty_iff] using
              lineOk_ne_nil (hcore c hc))]
          exact (hcore c hc).1
        · rw [List.mem_singleton] at hc
          subst hc
          rfl
      · exact ih.2
  | @emptyB rest hne hrest ih =>
    rw [show serializeBlocks (.empty :: rest) =
      Line.empty :: serializeBlocks rest from rfl]
    constructor
    · intro l hl
      rcases List.mem_cons.mp hl with rfl | hl
      · exact ⟨List.not_mem_nil _, List.not_mem_nil _⟩
      · exact ih.1 l hl
    · rw [List.map_cons, reSer_cons,
        show reSerBlock Block.empty = [Line.empty] from rfl,
        List.singleton_append, ih.2]
      rfl

/-- A non-empty well-formed document serializes to at least one line. -/
theorem serializeBlocks_ne_nil {d : List Block} (h : WFDoc d) (hd : d ≠ []) :
    serializeBlocks d ≠ [] := by
  cases h with
  | nil => exact absurd rfl hd
  | var hgk hgv hcs hrest => simp [serializeBlocks]
  | commentLast hcne hcore => simpa [serializeBlocks] using hcne
  | commentEmpty hcne hcore hhv hrest => simp [serializeBlocks]
  | commentMark hcne hcore hsw hrest => simp [serializeBlocks]
  | emptyB hne hrest => simp [serializeBlocks]

/-- Re-splitting and classifying a serialized well-formed document yields
exactly its expanded line list. -/
theorem reparse_lines {d : List Block} (h : WFDoc d) (hd : d ≠ []) :
    (splitLines (serializeToString d)).map parseLine = reSer d := by
  unfold serializeToString
  rw [splitLines_joinLines _ (by
      simp only [ne_eq, List.map_eq_nil_iff]
      exact serializeBlocks_ne_nil h hd)
    (fun l hl c hc => by
      rw [List.mem_map] at hl
      obtain ⟨x, hx, rfl⟩ := hl
      exact ⟨fun hcon => ((reSer_spec h).1 x hx).1 (hcon ▸ hc),
        fun hcon => ((reSer_spec h).1 x hx).2 (hcon ▸ hc)⟩)]
  rw [List.map_map]
  exact (reSer_spec h).2

theorem obsDoc_cons (b : Block) (d : List Block) :
    obsDoc (b :: d) = obsBlock b :: obsDoc d := rfl

/-- Feeding classified comment lines accumulates them onto the pending
list. -/
theorem parseBlocksAux_accum (cs : List (List Char)) (ls : List Line)
    (p : List (List Char)) (br : Bool) :
    parseBlocksAux (cs.map Line.comment ++ ls) p br false =
      parseBlocksAux ls (p ++ cs) (if cs.isEmpty then br else false) false := by
  induction cs generalizing p br with
  | nil => simp
  | cons c cs ih =>
    rw [List.map_cons, List.cons_append, parseBlocksAux_commenteq]
    simp only [Bool.and_false, Bool.false_eq_true, if_false]
    rw [ih (p ++ [c]) false, List.append_assoc, List.singleton_append,
      ite_self]
    simp only [List.isEmpty_cons, Bool.false_eq_true, if_false]

/-- A block list opening with a variable block free of comments (or
nothing) does not open with a blank block. -/
theorem headVar_not_empty {d : List Block} (h : headVarNoCommentsOrNil d) :
    headNotEmptyBlock d := by
  cases d with
  | nil => trivial
  | cons b d =>
    cases b with
    | var k v r cs =>
      cases cs with
      | nil => trivial
      | cons a as => exact h.elim
    | comment ls => exact h.elim
    | empty => exact h.elim

/-- The expanded line list of a document opening with a comment-free
variable block (or nothing) has no comment before its first variable. -/
theorem isNext_reSer_of_headVar {d : List Block} (h : headVarNoCommentsOrNil d) :
    isNextNonEmptyComment (reSer d) = false := by
  cases d with
  | nil => rfl
  | cons b d =>
    cases b with
    | var k v r cs =>
      cases cs with
      | nil => rfl
      | cons a as => exact h.elim
    | comment ls => exact h.elim
    | empty => exact h.elim

/-- The expanded line list of a well-formed document opening with a comment
line opens with a classified comment line. -/
theorem reSer_head_comment {d : List Block} (hw : WFDoc d)
    (h : startsWithCommentLine d) :
    ∃ c ls2, reSer d = Line.comment c :: ls2 := by
  cases hw with
  | nil => exact h.elim
  | @var k v r cs rest hgk hgv hcs hrest =>
    cases cs with
    | nil => exact h.elim
    | cons c cs2 => exact ⟨c, _, rfl⟩
  | @commentLast core hcne hcore =>
    cases core with
    | nil => exact absurd rfl hcne
    | cons c core2 =>
      refine ⟨c, core2.map (fun x : List Char =>
        if x.isEmpty then Line.empty else Line.comment x), ?_⟩
      rw [reSer_cons, show reSer ([] : List Block) = [] from rfl,
        List.append_nil,
        show reSerBlock (.comment (c :: core2)) =
          (if c.isEmpty then Line.empty else Line.comment c) ::
            core2.map (fun x : List Char =>
              if x.isEmpty then Line.empty else Line.comment x) from rfl,
        if_neg (by simpa [List.isEmpty_iff] using
          lineOk_ne_nil (hcore c (List.mem_cons_self _ _)))]
  | @commentEmpty core rest hcne hcore hhv hrest =>
    cases core with
    | nil => exact absurd rfl hcne
    | cons c core2 =>
      refine ⟨c, core2.map (fun x : List Char =>
        if x.isEmpty then Line.empty else Line.comment x) ++
        reSer (Block.empty :: rest), ?_⟩
      rw [reSer_cons,
        show reSerBlock (.comment (c :: core2)) =
          (if c.isEmpty then Line.empty else Line.comment c) ::
            core2.map (fun x : List Char =>
              if x.isEmpty then Line.empty else Line.comment x) from rfl,
        if_neg (by simpa [List.isEmpty_iff] using
          lineOk_ne_nil (hcore c (List.mem_cons_self _ _))),
        List.cons_append]
  | @commentMark core rest hcne hcore hsw hrest =>
    cases core with
    | nil => exact absurd rfl hcne
    | cons c core2 =>
      refine ⟨c, (core2 ++ [[]]).map (fun x : List Char =>
        if x.isEmpty then Line.empty else Line.comment x) ++
        reSer rest, ?_⟩
      rw [reSer_cons, List.cons_append,
        show reSerBlock (.comment (c :: (core2 ++ [[]]))) =
          (c :: (core2 ++ [[]])).map (fun x : List Char =>
            if x.isEmpty then Line.empty else Line.comment x) from rfl,
        List.map_cons,
        if_neg (by simpa [List.isEmpty_iff] using
          lineOk_ne_nil (hcore c (List.mem_cons_self _ _))),
        List.cons_append]
  | @emptyB rest hne hrest => exact h.elim

/-- Re-grouping the expanded line list of a well-formed document restores
the document observationally (the stored raw text is forgotten). -/
theorem reparse_blocks {d : List Block} (h : WFDoc d) :
    ∀ br : Bool, (br = true → headNotEmptyBlock d) →
      obsDoc (parseBlocksAux (reSer d) [] br false) = obsDoc d := by
  induction h with
  | nil => intro br _; rfl
  | @var k v r cs rest hgk hgv hcs hrest ih =>
    intro br _
    rw [reSer_cons,
      show reSerBlock (.var k v r cs) =
        cs.map Line.comment ++ [.var k v (k ++ '=' :: quoteValue v)] from rfl,
      List.append_assoc, List.singleton_append, parseBlocksAux_accum,
      List.nil_append, parseBlocksAux_vareq, obsDoc_cons, obsDoc_cons,
      ih false (fun hcon => absurd hcon (by decide))]
    rfl
  | @commentLast core hcne hcore =>
    intro br _
    have hmap : core.map (fun c : List Char =>
        if c.isEmpty then Line.empty else Line.comment c) =
        core.map Line.comment :=
      List.map_congr_left fun c hc =>
        if_neg (by simpa [List.isEmpty_iff] using lineOk_ne_nil (hcore c hc))
    rw [reSer_cons, show reSer ([] : List Block) = [] from rfl,
      List.append_nil,
      show reSerBlock (.comment core) =
        core.map (fun c : List Char =>
          if c.isEmpty then Line.empty else Line.comment c) from rfl,
      hmap, show (core.map Line.comment : List Line) =
        core.map Line.comment ++ [] from (List.append_nil _).symm,
      parseBlocksAux_accum, List.nil_append, parseBlocksAux_nileq,
      if_neg (by simpa [List.isEmpty_iff] using hcne)]
  | @commentEmpty core rest hcne hcore hhv hrest ih =>
    intro br _
    have hmap : core.map (fun c : List Char =>
        if c.isEmpty then Line.empty else Line.comment c) =
        core.map Line.comment :=
      List.map_congr_left fun c hc =>
        if_neg (by simpa [List.isEmpty_iff] using lineOk_ne_nil (hcore c hc))
    have hce : core.isEmpty = false := by
      simpa [List.isEmpty_iff] using hcne
    rw [reSer_cons, reSer_cons,
      show reSerBlock Block.empty = [Line.empty] from rfl,
      show reSerBlock (.comment core) =
        core.map (fun c : List Char =>
          if c.isEmpty then Line.empty else Line.comment c) from rfl,
      hmap, List.singleton_append, parseBlocksAux_accum, List.nil_append,
      parseBlocksAux_emptyeq]
    simp only [hce, Bool.not_false, if_true, Bool.false_eq_true, if_false,
      isNext_reSer_of_headVar hhv]
    rw [obsDoc_cons, obsDoc_cons, obsDoc_cons, obsDoc_cons,
      ih true (fun _ => headVar_not_empty hhv)]
  | @commentMark core rest hcne hcore hsw hrest ih =>
    intro br _
    have hmap : (core ++ [[]]).map (fun c : List Char =>
        if c.isEmpty then Line.empty else Line.comment c) =
        core.map Line.comment ++ [Line.empty] := by
      rw [List.map_append]
      congr 1
      exact List.map_congr_left fun c hc =>
        if_neg (by simpa [List.isEmpty_iff] using lineOk_ne_nil (hcore c hc))
    have hce : core.isEmpty = false := by
      simpa [List.isEmpty_iff] using hcne
    obtain ⟨c, ls2, heq⟩ := reSer_head_comment hrest hsw
    have hnc : isNextNonEmptyComment (reSer rest) = true := by
      rw [heq]
      rfl
    have ih2 := ih false (fun hcon => absurd hcon (by decide))
    rw [heq, parseBlocksAux_commenteq] at ih2
    simp only [Bool.and_false, Bool.false_eq_true, if_false,
      List.nil_append] at ih2
    rw [reSer_cons,
      show reSerBlock (.comment (core ++ [[]])) =
        (core ++ [[]]).map (fun c : List Char =>
          if c.isEmpty then Line.empty else Line.comment c) from rfl,
      hmap, List.append_assoc, List.singleton_append, parseBlocksAux_accum,
      List.nil_append, parseBlocksAux_emptyeq]
    simp only [hce, Bool.not_false, if_true, Bool.false_eq_true, if_false,
      hnc]
    have hne2 : (core ++ [[]]).isEmpty = false := by cases core <;> rfl
    rw [heq, parseBlocksAux_commenteq, if_pos (by rw [hne2]; rfl),
      obsDoc_cons, obsDoc_cons, ih2]
  | @emptyB rest hne hrest ih =>
    intro br hbr
    have hbr0 : br = false := by
      cases br with
      | false => rfl
      | true => exact absurd (hbr rfl) (by simp [headNotEmptyBlock])
    subst hbr0
    rw [reSer_cons, show reSerBlock Block.empty = [Line.empty] from rfl,
      List.singleton_append, parseBlocksAux_emptyeq]
    simp only [List.isEmpty_nil, Bool.not_true, Bool.false_eq_true, if_false]
    rw [obsDoc_cons, obsDoc_cons, ih true (fun _ => hne)]

/-- A parsed safe text is a well-formed document. -/
theorem parseEnvFile_wf {t : List Char} (ht : safeText t = true) :
    WFDoc (parseEnvFile t) :=
  (parseBlocksAux_wf ((splitLines t).map parseLine) [] false false
    (lines_lineGood ht) (fun h => absurd h (by decide))
    (fun _ x hx => absurd hx (List.not_mem_nil x))).1

/-- Splitting a CR-free text yields at least one line. -/
theorem splitLines_ne_nil {s : List Char} (hs : '\r' ∉ s) :
    splitLines s ≠ [] := by
  induction s with
  | nil => simp [show splitLines [] = [[]] from rfl]
  | cons c s ih =>
    have hcr : c ≠ '\r' := fun h => hs (h ▸ List.mem_cons_self _ _)
    by_cases hcn : c = '\n'
    · subst hcn
      rw [splitLines_n]
      simp
    · rw [splitLines_other c s hcn hcr]
      cases hsp : splitLines s with
      | nil => simp
      | cons l ls => simp

/-- With pending comments the grouping loop always emits a block. -/
theorem parseBlocksAux_ne_nil_pending (ls : List Line) :
    ∀ p, p ≠ [] → ∀ br he, parseBlocksAux ls p br he ≠ [] := by
  induction ls with
  | nil =>
    intro p hp br he
    rw [parseBlocksAux_nileq, if_neg (by simpa [List.isEmpty_iff] using hp)]
    simp
  | cons l rest ih =>
    intro p hp br he
    cases l with
    | var k v r =>
      rw [parseBlocksAux_vareq]
      simp
    | comment c =>
      rw [parseBlocksAux_commenteq]
      by_cases hc : (!p.isEmpty && he) = true
      · rw [if_pos hc]
        simp
      · rw [if_neg hc]
        exact ih (p ++ [c]) (by simp) false he
    | empty =>
      rw [parseBlocksAux_emptyeq]
      have hpe : p.isEmpty = false := by simpa [List.isEmpty_iff] using hp
      simp only [hpe, Bool.not_false, if_true]
      by_cases hnc : isNextNonEmptyComment rest = true
      · rw [if_pos hnc]
        by_cases hbr : br = true
        · rw [if_pos hbr]
          exact ih p hp true he
        · rw [if_neg hbr]
          exact ih (p ++ [[]]) (by simp) true true
      · rw [if_neg hnc]
        by_cases hbr : br = true
        · rw [if_pos hbr]
          exact ih p hp true he
        · rw [if_neg hbr]
          simp

/-- Parsing a CR-free text yields at least one block. -/
theorem parseEnvFile_ne_nil {t : List Char} (ht : '\r' ∉ t) :
    parseEnvFile t ≠ [] := by
  rw [show parseEnvFile t =
    parseBlocksAux ((splitLines t).map parseLine) [] false false from rfl]
  cases hsp : splitLines t with
  | nil => exact absurd hsp (splitLines_ne_nil ht)
  | cons l ls =>
    rw [List.map_cons]
    cases hpl : parseLine l with
    | var k v r =>
      rw [parseBlocksAux_vareq]
      simp
    | comment c =>
      rw [parseBlocksAux_commenteq]
      simp only [List.isEmpty_nil, Bool.not_true, Bool.false_and,
        Bool.false_eq_true, if_false, List.nil_append]
      exact parseBlocksAux_ne_nil_pending _ [c] (by simp) false false
    | empty =>
      rw [parseBlocksAux_emptyeq]
      simp only [List.isEmpty_nil, Bool.not_true, Bool.false_eq_true,
        if_false]
      simp

/-- C3 (amended): serialize-then-parse is the identity up to the stored
`raw` text, for inputs that avoid the decoder and trimmer pitfalls: for any
text whose characters are not backslashes and not whitespace other than
space, tab and LF, re-parsing the serialization of a parsed document
restores the document observationally (same keys, decoded values, comment
lines and blank structure); and for any value whose characters are not
backslashes and not whitespace other than space, tab, LF and CR, the
decoder inverts the encoder, `unquoteValue (quoteValue v) = v`. -/
theorem c3_roundtrip_amended :
    (∀ t : List Char, safeText t = true →
      obsDoc (parseEnvFile (serializeToString (parseEnvFile t))) =
        obsDoc (parseEnvFile t)) ∧
    (∀ v : List Char, safeValue v = true →
      unquoteValue (quoteValue v) = v) := by
  constructor
  · intro t ht
    have hwf : WFDoc (parseEnvFile t) := parseEnvFile_wf ht
    have hne : parseEnvFile t ≠ [] := parseEnvFile_ne_nil (safeText_no_cr ht)
    rw [show parseEnvFile (serializeToString (parseEnvFile t)) =
      parseBlocksAux ((splitLines (serializeToString (parseEnvFile t))).map
        parseLine) [] false false from rfl,
      reparse_lines hwf hne,
      reparse_blocks hwf false (fun hcon => absurd hcon (by decide))]
  · exact fun v hv => unquote_quote hv

/-- Witness for C3 (amended): a concrete safe text with a comment, a value
holding a space (hence quoted on output) and a blank line round-trips, and
a concrete safe value survives decode-after-encode. -/
theorem c3_roundtrip_amended_witness :
    safeText (str "# note\nA=a b\n\nB=2") = true ∧
    obsDoc (parseEnvFile (serializeToString
        (parseEnvFile (str "# note\nA=a b\n\nB=2")))) =
      obsDoc (parseEnvFile (str "# note\nA=a b\n\nB=2")) ∧
    safeValue (str "hello world") = true ∧
    unquoteValue (quoteValue (str "hello world")) = str "hello world" :=
  ⟨by decide, c3_roundtrip_amended.1 _ (by decide), by decide,
    c3_roundtrip_amended.2 _ (by decide)⟩

end EnvMerge
